import Mathlib

/-
  Verification of the concurrent hash-set family (sequential, coarse-grained,
  striped, refinable) against its specification.

  Elements are modelled as natural numbers together with an arbitrary
  deterministic hash function `hash : Nat → Nat` (any hashable element type is
  coded through its hash); buckets are lists, the table is a list of buckets,
  exactly as in the C++ sources (`std::vector<std::vector<T>>`).  Each variant
  keeps the field names of its source class.  The single-threaded projection of
  each operation is embedded; lock indices are kept as explicit definitions so
  that claims about the locking layout remain statable.
-/

namespace ConcurrencyHashSets

/-- operations of the shared set contract (§4.1 of the spec) -/
inductive Op where
  | add (e : Nat)
  | remove (e : Nat)
  | contains (e : Nat)
  | size
deriving DecidableEq, Repr

/-- result of one operation: a boolean for Add/Remove/Contains, a count for Size -/
inductive Res where
  | rbool (b : Bool)
  | rnat (n : Nat)
deriving DecidableEq, Repr

/-- push one element onto the bucket `hash e % cap` of table `t`
    (the inner statement of every rehash loop:
    `table_.at(std::hash<T>()(elem) % new_capacity).push_back(elem)`). -/
def pushElem (hash : Nat → Nat) (cap : Nat) (t : List (List Nat)) (e : Nat) :
    List (List Nat) :=
  t.set (hash e % cap) ((t.getD (hash e % cap) []) ++ [e])

/-- the rehash loop shared by every Resize: a fresh table of `newCap` empty
    buckets receives every element of every bucket of the old table, in order. -/
def resizeTable (hash : Nat → Nat) (newCap : Nat) (old : List (List Nat)) :
    List (List Nat) :=
  old.foldl (fun acc bucket => bucket.foldl (pushElem hash newCap) acc)
    (List.replicate newCap [])

/-- state of `HashSetSequential` (src/unnamed/part_000): the capacity field is
    named `initial_capacity_` in the source and is mutated by Resize. -/
structure SeqState where
  initial_capacity_ : Nat
  set_size_ : Nat
  table_ : List (List Nat)
deriving DecidableEq, Repr

/-- `HashSetSequential` constructor: `initial_capacity` empty buckets, size 0 -/
def SeqState.init (c : Nat) : SeqState :=
  { initial_capacity_ := c, set_size_ := 0, table_ := List.replicate c [] }

/-- `HashSetSequential::Policy`: `set_size_ / initial_capacity_ > 4`
    (C++ `size_t` division, i.e. truncated division) -/
def SeqState.policy (s : SeqState) : Bool :=
  s.set_size_ / s.initial_capacity_ > 4

/-- `HashSetSequential::Resize`: double `initial_capacity_`, rehash the whole
    table into a fresh table of the new capacity -/
def SeqState.resize (hash : Nat → Nat) (s : SeqState) : SeqState :=
  { s with initial_capacity_ := s.initial_capacity_ * 2,
           table_ := resizeTable hash (s.initial_capacity_ * 2) s.table_ }

/-- `HashSetSequential::Add`: scan the bucket `hash e % initial_capacity_`;
    if found return false, else append, increment `set_size_`, and resize when
    the policy fires -/
def SeqState.add (hash : Nat → Nat) (s : SeqState) (e : Nat) : Bool × SeqState :=
  let b := s.table_.getD (hash e % s.initial_capacity_) []
  if b.contains e then (false, s)
  else
    let s1 : SeqState :=
      { s with set_size_ := s.set_size_ + 1,
               table_ := s.table_.set (hash e % s.initial_capacity_) (b ++ [e]) }
    if s1.policy then (true, s1.resize hash) else (true, s1)

/-- `HashSetSequential::Remove`: short-circuit to false when `set_size_ == 0`;
    otherwise scan the bucket, erase the first match and decrement `set_size_` -/
def SeqState.remove (hash : Nat → Nat) (s : SeqState) (e : Nat) : Bool × SeqState :=
  if s.set_size_ = 0 then (false, s)
  else
    let b := s.table_.getD (hash e % s.initial_capacity_) []
    if b.contains e then
      (true, { s with set_size_ := s.set_size_ - 1,
                      table_ := s.table_.set (hash e % s.initial_capacity_)
                        (b.erase e) })
    else (false, s)

/-- `HashSetSequential::Contains`: `std::find` over the bucket -/
def SeqState.containsElem (hash : Nat → Nat) (s : SeqState) (e : Nat) : Bool :=
  (s.table_.getD (hash e % s.initial_capacity_) []).contains e

/-- one operation of the sequential variant -/
def SeqState.step (hash : Nat → Nat) (s : SeqState) : Op → Res × SeqState
  | .add e => let p := s.add hash e; (.rbool p.1, p.2)
  | .remove e => let p := s.remove hash e; (.rbool p.1, p.2)
  | .contains e => (.rbool (s.containsElem hash e), s)
  | .size => (.rnat s.set_size_, s)

/-- run a sequence of operations single-threaded on the sequential variant,
    collecting the results -/
def SeqState.run (hash : Nat → Nat) : SeqState → List Op → List Res × SeqState
  | s, [] => ([], s)
  | s, op :: ops =>
    let p := SeqState.step hash s op
    let q := SeqState.run hash p.2 ops
    (p.1 :: q.1, q.2)

/-- state of `HashSetCoarseGrained` (src/src/hash_set_coarse_grained.h): one
    global mutex (not part of the functional state); `initial_capacity_` is an
    atomic that Resize doubles in place, exactly as in HashSetSequential. -/
structure CoarseState where
  initial_capacity_ : Nat
  set_size_ : Nat
  table_ : List (List Nat)
deriving DecidableEq, Repr

/-- `HashSetCoarseGrained` constructor -/
def CoarseState.init (c : Nat) : CoarseState :=
  { initial_capacity_ := c, set_size_ := 0, table_ := List.replicate c [] }

/-- `HashSetCoarseGrained::Policy`: `set_size_ / initial_capacity_.load() > 4` -/
def CoarseState.policy (s : CoarseState) : Bool :=
  s.set_size_ / s.initial_capacity_ > 4

/-- `HashSetCoarseGrained::Resize` -/
def CoarseState.resize (hash : Nat → Nat) (s : CoarseState) : CoarseState :=
  { s with initial_capacity_ := s.initial_capacity_ * 2,
           table_ := resizeTable hash (s.initial_capacity_ * 2) s.table_ }

/-- `HashSetCoarseGrained::Add` (single-threaded projection; the scoped lock
    on `mutex_` is a no-op for one thread) -/
def CoarseState.add (hash : Nat → Nat) (s : CoarseState) (e : Nat) :
    Bool × CoarseState :=
  let b := s.table_.getD (hash e % s.initial_capacity_) []
  if b.contains e then (false, s)
  else
    let s1 : CoarseState :=
      { s with set_size_ := s.set_size_ + 1,
               table_ := s.table_.set (hash e % s.initial_capacity_) (b ++ [e]) }
    if s1.policy then (true, s1.resize hash) else (true, s1)

/-- `HashSetCoarseGrained::Remove` -/
def CoarseState.remove (hash : Nat → Nat) (s : CoarseState) (e : Nat) :
    Bool × CoarseState :=
  if s.set_size_ = 0 then (false, s)
  else
    let b := s.table_.getD (hash e % s.initial_capacity_) []
    if b.contains e then
      (true, { s with set_size_ := s.set_size_ - 1,
                      table_ := s.table_.set (hash e % s.initial_capacity_)
                        (b.erase e) })
    else (false, s)

/-- `HashSetCoarseGrained::Contains` -/
def CoarseState.containsElem (hash : Nat → Nat) (s : CoarseState) (e : Nat) :
    Bool :=
  (s.table_.getD (hash e % s.initial_capacity_) []).contains e

/-- one operation of the coarse-grained variant; `Size` is
    `set_size_.load()` -/
def CoarseState.step (hash : Nat → Nat) (s : CoarseState) : Op → Res × CoarseState
  | .add e => let p := s.add hash e; (.rbool p.1, p.2)
  | .remove e => let p := s.remove hash e; (.rbool p.1, p.2)
  | .contains e => (.rbool (s.containsElem hash e), s)
  | .size => (.rnat s.set_size_, s)

/-- single-threaded run of the coarse-grained variant -/
def CoarseState.run (hash : Nat → Nat) :
    CoarseState → List Op → List Res × CoarseState
  | s, [] => ([], s)
  | s, op :: ops =>
    let p := CoarseState.step hash s op
    let q := CoarseState.run hash p.2 ops
    (p.1 :: q.1, q.2)

/-- state of `HashSetStriped` (src/src/hash_set_striped.h): a const
    `initial_capacity_`, an atomic `current_capacity_`, and a lock array
    `mutexes_` of `initial_capacity_` mutexes allocated once in the
    constructor.  `mutexes_len` records the length of that array (the array
    is never reallocated); the mutexes themselves carry no functional state. -/
structure StripedState where
  initial_capacity_ : Nat
  current_capacity_ : Nat
  set_size_ : Nat
  table_ : List (List Nat)
  mutexes_len : Nat
deriving DecidableEq, Repr

/-- `HashSetStriped` constructor: `mutexes_ = new std::mutex[initial_capacity]` -/
def StripedState.init (c : Nat) : StripedState :=
  { initial_capacity_ := c, current_capacity_ := c, set_size_ := 0,
    table_ := List.replicate c [], mutexes_len := c }

/-- index of the stripe lock guarding `e`:
    `mutexes_[std::hash<T>()(elem) % initial_capacity_]` -/
def StripedState.lockIdx (hash : Nat → Nat) (s : StripedState) (e : Nat) : Nat :=
  hash e % s.initial_capacity_

/-- index of the bucket holding `e`:
    `table_.at(std::hash<T>()(elem) % current_capacity_)` -/
def StripedState.bucketIdx (hash : Nat → Nat) (s : StripedState) (e : Nat) : Nat :=
  hash e % s.current_capacity_

/-- `HashSetStriped::Policy`: `set_size_.load() / current_capacity_ > 4` -/
def StripedState.policy (s : StripedState) : Bool :=
  s.set_size_ / s.current_capacity_ > 4

/-- body of `HashSetStriped::Resize` after all stripe locks are acquired:
    the double-check `oldCapacity == current_capacity_.load()` guards the
    doubling and rehash; the lock array is left untouched -/
def StripedState.resizeBody (hash : Nat → Nat) (s : StripedState)
    (oldCapacity : Nat) : StripedState :=
  if oldCapacity = s.current_capacity_ then
    { s with current_capacity_ := s.current_capacity_ * 2,
             table_ := resizeTable hash (s.current_capacity_ * 2) s.table_ }
  else s

/-- `HashSetStriped::Resize` called single-threaded: `oldCapacity` is read
    from `current_capacity_` at entry and no other thread can change it -/
def StripedState.resize (hash : Nat → Nat) (s : StripedState) : StripedState :=
  s.resizeBody hash s.current_capacity_

/-- `HashSetStriped::Add` (single-threaded projection): lock stripe
    `lockIdx`, operate on bucket `bucketIdx`, unlock before Policy/Resize -/
def StripedState.add (hash : Nat → Nat) (s : StripedState) (e : Nat) :
    Bool × StripedState :=
  let b := s.table_.getD (s.bucketIdx hash e) []
  if b.contains e then (false, s)
  else
    let s1 : StripedState :=
      { s with set_size_ := s.set_size_ + 1,
               table_ := s.table_.set (s.bucketIdx hash e) (b ++ [e]) }
    if s1.policy then (true, s1.resize hash) else (true, s1)

/-- `HashSetStriped::Remove` -/
def StripedState.remove (hash : Nat → Nat) (s : StripedState) (e : Nat) :
    Bool × StripedState :=
  if s.set_size_ = 0 then (false, s)
  else
    let b := s.table_.getD (s.bucketIdx hash e) []
    if b.contains e then
      (true, { s with set_size_ := s.set_size_ - 1,
                      table_ := s.table_.set (s.bucketIdx hash e) (b.erase e) })
    else (false, s)

/-- `HashSetStriped::Contains` -/
def StripedState.containsElem (hash : Nat → Nat) (s : StripedState) (e : Nat) :
    Bool :=
  (s.table_.getD (s.bucketIdx hash e) []).contains e

/-- one operation of the striped variant -/
def StripedState.step (hash : Nat → Nat) (s : StripedState) :
    Op → Res × StripedState
  | .add e => let p := s.add hash e; (.rbool p.1, p.2)
  | .remove e => let p := s.remove hash e; (.rbool p.1, p.2)
  | .contains e => (.rbool (s.containsElem hash e), s)
  | .size => (.rnat s.set_size_, s)

/-- single-threaded run of the striped variant -/
def StripedState.run (hash : Nat → Nat) :
    StripedState → List Op → List Res × StripedState
  | s, [] => ([], s)
  | s, op :: ops =>
    let p := StripedState.step hash s op
    let q := StripedState.run hash p.2 ops
    (p.1 :: q.1, q.2)

/-- state of `HashSetRefinable` (src/src/hash_set_refinable.h): an atomic
    `current_capacity_`, a bucket-lock vector `mutexes_` whose length tracks
    the capacity (Resize replaces it by a freshly sized vector), and the
    shared `resize_mutex_` (no functional state). -/
structure RefinableState where
  current_capacity_ : Nat
  set_size_ : Nat
  table_ : List (List Nat)
  mutexes_len : Nat
deriving DecidableEq, Repr

/-- `HashSetRefinable` constructor:
    `mutexes_ = std::vector<std::mutex>(initial_capacity)` -/
def RefinableState.init (c : Nat) : RefinableState :=
  { current_capacity_ := c, set_size_ := 0, table_ := List.replicate c [],
    mutexes_len := c }

/-- `HashSetRefinable::Policy`: `set_size_.load() / current_capacity_ > 4` -/
def RefinableState.policy (s : RefinableState) : Bool :=
  s.set_size_ / s.current_capacity_ > 4

/-- body of `HashSetRefinable::Resize` once the writer lock and every bucket
    lock are held: `if (old_capacity != current_capacity_) return;` else
    store `2 * old_capacity`, rehash, and resize the lock vector -/
def RefinableState.resizeBody (hash : Nat → Nat) (s : RefinableState)
    (old_capacity : Nat) : RefinableState :=
  if old_capacity ≠ s.current_capacity_ then s
  else
    { s with current_capacity_ := 2 * old_capacity,
             table_ := resizeTable hash (2 * old_capacity) s.table_,
             mutexes_len := 2 * old_capacity }

/-- `HashSetRefinable::Resize` called single-threaded: `old_capacity` reads
    `current_capacity_` at entry -/
def RefinableState.resize (hash : Nat → Nat) (s : RefinableState) :
    RefinableState :=
  s.resizeBody hash s.current_capacity_

/-- `HashSetRefinable::Add` (single-threaded projection): shared resize lock,
    bucket lock at `hash e % current_capacity_`, unlock both before Resize -/
def RefinableState.add (hash : Nat → Nat) (s : RefinableState) (e : Nat) :
    Bool × RefinableState :=
  let b := s.table_.getD (hash e % s.current_capacity_) []
  if b.contains e then (false, s)
  else
    let s1 : RefinableState :=
      { s with set_size_ := s.set_size_ + 1,
               table_ := s.table_.set (hash e % s.current_capacity_) (b ++ [e]) }
    if s1.policy then (true, s1.resize hash) else (true, s1)

/-- `HashSetRefinable::Remove` -/
def RefinableState.remove (hash : Nat → Nat) (s : RefinableState) (e : Nat) :
    Bool × RefinableState :=
  if s.set_size_ = 0 then (false, s)
  else
    let b := s.table_.getD (hash e % s.current_capacity_) []
    if b.contains e then
      (true, { s with set_size_ := s.set_size_ - 1,
                      table_ := s.table_.set (hash e % s.current_capacity_)
                        (b.erase e) })
    else (false, s)

/-- `HashSetRefinable::Contains` -/
def RefinableState.containsElem (hash : Nat → Nat) (s : RefinableState)
    (e : Nat) : Bool :=
  (s.table_.getD (hash e % s.current_capacity_) []).contains e

/-- one operation of the refinable variant -/
def RefinableState.step (hash : Nat → Nat) (s : RefinableState) :
    Op → Res × RefinableState
  | .add e => let p := s.add hash e; (.rbool p.1, p.2)
  | .remove e => let p := s.remove hash e; (.rbool p.1, p.2)
  | .contains e => (.rbool (s.containsElem hash e), s)
  | .size => (.rnat s.set_size_, s)

/-- single-threaded run of the refinable variant -/
def RefinableState.run (hash : Nat → Nat) :
    RefinableState → List Op → List Res × RefinableState
  | s, [] => ([], s)
  | s, op :: ops =>
    let p := RefinableState.step hash s op
    let q := RefinableState.run hash p.2 ops
    (p.1 :: q.1, q.2)

/-! ### Table lemmas: `set`, `getD`, `flatten` -/

/-- reading back the bucket just written -/
theorem getD_set_self {t : List (List Nat)} {i : Nat} (b : List Nat)
    (h : i < t.length) : (t.set i b).getD i [] = b := by
  rw [List.getD_eq_getElem?_getD, List.getElem?_set_self h]
  rfl

/-- writing one bucket leaves the others unchanged -/
theorem getD_set_ne {t : List (List Nat)} {i j : Nat} (b : List Nat)
    (h : i ≠ j) : (t.set i b).getD j [] = t.getD j [] := by
  rw [List.getD_eq_getElem?_getD, List.getElem?_set_ne h,
    ← List.getD_eq_getElem?_getD]

/-- every bucket of a fresh table is empty -/
theorem getD_replicate_nil (n i : Nat) :
    (List.replicate n ([] : List Nat)).getD i [] = [] := by
  cases Nat.lt_or_ge i n with
  | inl h => simp [List.getD_eq_getElem?_getD, List.getElem?_replicate, h]
  | inr h =>
    simp [List.getD_eq_getElem?_getD, List.getElem?_replicate, Nat.not_lt.mpr h]

/-- element count over the whole table after replacing bucket `i` by `b'` -/
theorem count_flatten_set (a : Nat) (b' : List Nat) :
    ∀ (t : List (List Nat)) (i : Nat), i < t.length →
      List.count a ((t.set i b').flatten) + List.count a (t.getD i []) =
        List.count a t.flatten + List.count a b' := by
  intro t
  induction t with
  | nil => intro i h; simp at h
  | cons b r ih =>
    intro i h
    cases i with
    | zero => simp [List.count_append]; omega
    | succ i =>
      have h' : i < r.length := by simpa using h
      have := ih i h'
      simp only [List.set_cons_succ, List.flatten_cons, List.count_append,
        List.getD_cons_succ]
      omega

/-- total number of stored elements after replacing bucket `i` by `b'` -/
theorem length_flatten_set (b' : List Nat) :
    ∀ (t : List (List Nat)) (i : Nat), i < t.length →
      ((t.set i b').flatten).length + (t.getD i []).length =
        t.flatten.length + b'.length := by
  intro t
  induction t with
  | nil => intro i h; simp at h
  | cons b r ih =>
    intro i h
    cases i with
    | zero => simp [List.length_append]; omega
    | succ i =>
      have h' : i < r.length := by simpa using h
      have := ih i h'
      simp only [List.set_cons_succ, List.flatten_cons, List.length_append,
        List.getD_cons_succ]
      omega

/-- an element of some bucket is an element of the table -/
theorem mem_getD_mem_flatten {e : Nat} :
    ∀ (t : List (List Nat)) (i : Nat), e ∈ t.getD i [] → e ∈ t.flatten := by
  intro t
  induction t with
  | nil => intro i h; simp [List.getD] at h
  | cons b r ih =>
    intro i h
    cases i with
    | zero => simp only [List.getD_cons_zero] at h; simp [h]
    | succ i =>
      simp only [List.getD_cons_succ] at h
      simp [List.flatten_cons]
      exact Or.inr (by simpa using List.mem_flatten.mp (ih i h))

/-- an element of the table lies in some in-range bucket -/
theorem mem_flatten_exists_idx {e : Nat} :
    ∀ (t : List (List Nat)), e ∈ t.flatten →
      ∃ i, i < t.length ∧ e ∈ t.getD i [] := by
  intro t
  induction t with
  | nil => intro h; simp at h
  | cons b r ih =>
    intro h
    rw [List.flatten_cons, List.mem_append] at h
    cases h with
    | inl h => exact ⟨0, by simp, by simpa using h⟩
    | inr h =>
      obtain ⟨i, hi, hmem⟩ := ih h
      exact ⟨i + 1, by simpa using hi, by simpa using hmem⟩

/-- a table is well placed for capacity `cap` when every element of every
    in-range bucket hashes to that bucket (spec §3: bucket index for an
    element is always `hash(elem) mod current_capacity`) -/
def PlacedTable (hash : Nat → Nat) (cap : Nat) (t : List (List Nat)) : Prop :=
  ∀ i, i < t.length → ∀ e, e ∈ t.getD i [] → hash e % cap = i

/-- in a well-placed full-length table, membership anywhere in the table is
    membership in the home bucket -/
theorem mem_flatten_iff_mem_home {hash : Nat → Nat} {cap : Nat}
    {t : List (List Nat)} (hp : PlacedTable hash cap t) (e : Nat) :
    e ∈ t.flatten ↔ e ∈ t.getD (hash e % cap) [] := by
  constructor
  · intro h
    obtain ⟨i, hi, hmem⟩ := mem_flatten_exists_idx t h
    have := hp i hi e hmem
    rwa [this]
  · intro h
    exact mem_getD_mem_flatten t (hash e % cap) h

/-! ### Rehash lemmas: `pushElem`, `resizeTable` -/

theorem length_pushElem (hash : Nat → Nat) (cap : Nat) (t : List (List Nat))
    (e : Nat) : (pushElem hash cap t e).length = t.length := by
  simp [pushElem, List.length_set]

/-- pushing an element adds exactly one copy of it to the table -/
theorem count_flatten_pushElem (hash : Nat → Nat) {cap : Nat}
    {t : List (List Nat)} (e : Nat) (hlen : t.length = cap) (hpos : 0 < cap)
    (a : Nat) :
    List.count a (pushElem hash cap t e).flatten =
      List.count a (t.flatten ++ [e]) := by
  have hidx : hash e % cap < t.length := by rw [hlen]; exact Nat.mod_lt _ hpos
  have h2 := count_flatten_set a ((t.getD (hash e % cap) []) ++ [e]) t
    (hash e % cap) hidx
  rw [List.count_append] at h2
  rw [List.count_append]
  simp only [pushElem]
  omega

theorem length_flatten_pushElem (hash : Nat → Nat) {cap : Nat}
    {t : List (List Nat)} (e : Nat) (hlen : t.length = cap) (hpos : 0 < cap) :
    ((pushElem hash cap t e).flatten).length = t.flatten.length + 1 := by
  have hidx : hash e % cap < t.length := by rw [hlen]; exact Nat.mod_lt _ hpos
  have h2 := length_flatten_set ((t.getD (hash e % cap) []) ++ [e]) t
    (hash e % cap) hidx
  simp only [List.length_append, List.length_singleton] at h2
  simp only [pushElem]
  omega

/-- pushing an element into its home bucket keeps the table well placed -/
theorem placed_pushElem (hash : Nat → Nat) {cap : Nat} {t : List (List Nat)}
    (e : Nat) (hp : PlacedTable hash cap t) :
    PlacedTable hash cap (pushElem hash cap t e) := by
  intro i hi e' hmem
  rw [length_pushElem] at hi
  by_cases hie : hash e % cap = i
  · subst hie
    by_cases hrange : hash e % cap < t.length
    · rw [pushElem, getD_set_self _ hrange, List.mem_append] at hmem
      cases hmem with
      | inl h => exact hp _ hrange _ h
      | inr h => simp at h; rw [h]
    · exact absurd hi hrange
  · rw [pushElem, getD_set_ne _ hie] at hmem
    exact hp i hi e' hmem

theorem length_foldl_pushElem (hash : Nat → Nat) (cap : Nat) :
    ∀ (es : List Nat) (t : List (List Nat)),
      (List.foldl (pushElem hash cap) t es).length = t.length := by
  intro es
  induction es with
  | nil => intro t; rfl
  | cons e es ih =>
    intro t
    rw [List.foldl_cons, ih, length_pushElem]

theorem count_flatten_foldl_pushElem (hash : Nat → Nat) {cap : Nat}
    (hpos : 0 < cap) (a : Nat) :
    ∀ (es : List Nat) (t : List (List Nat)), t.length = cap →
      List.count a (List.foldl (pushElem hash cap) t es).flatten =
        List.count a t.flatten + List.count a es := by
  intro es
  induction es with
  | nil => intro t _; simp
  | cons e es ih =>
    intro t hlen
    rw [List.foldl_cons,
      ih (pushElem hash cap t e) (by rw [length_pushElem]; exact hlen),
      count_flatten_pushElem hash e hlen hpos]
    simp only [List.count_append, List.count_cons, List.count_nil]
    omega

theorem length_flatten_foldl_pushElem (hash : Nat → Nat) {cap : Nat}
    (hpos : 0 < cap) :
    ∀ (es : List Nat) (t : List (List Nat)), t.length = cap →
      ((List.foldl (pushElem hash cap) t es).flatten).length =
        t.flatten.length + es.length := by
  intro es
  induction es with
  | nil => intro t _; simp
  | cons e es ih =>
    intro t hlen
    rw [List.foldl_cons,
      ih (pushElem hash cap t e) (by rw [length_pushElem]; exact hlen),
      length_flatten_pushElem hash e hlen hpos, List.length_cons]
    omega

theorem placed_foldl_pushElem (hash : Nat → Nat) {cap : Nat} :
    ∀ (es : List Nat) (t : List (List Nat)), PlacedTable hash cap t →
      PlacedTable hash cap (List.foldl (pushElem hash cap) t es) := by
  intro es
  induction es with
  | nil => intro t hp; exact hp
  | cons e es ih =>
    intro t hp
    rw [List.foldl_cons]
    exact ih (pushElem hash cap t e) (placed_pushElem hash e hp)

/-- the two nested rehash loops are the single loop over all stored elements -/
theorem resizeTable_eq_foldl_flatten (hash : Nat → Nat) (newCap : Nat)
    (old : List (List Nat)) :
    resizeTable hash newCap old =
      old.flatten.foldl (pushElem hash newCap) (List.replicate newCap []) := by
  rw [resizeTable]
  generalize List.replicate newCap ([] : List Nat) = t
  induction old generalizing t with
  | nil => simp
  | cons b r ih => simp [List.flatten_cons, List.foldl_append, ih]

theorem flatten_replicate_nil (n : Nat) :
    (List.replicate n ([] : List Nat)).flatten = [] := by
  induction n with
  | zero => rfl
  | succ n ih => simp [List.replicate, ih]

theorem length_resizeTable (hash : Nat → Nat) (newCap : Nat)
    (old : List (List Nat)) : (resizeTable hash newCap old).length = newCap := by
  rw [resizeTable_eq_foldl_flatten, length_foldl_pushElem,
    List.length_replicate]

/-- rehashing preserves the multiset of stored elements -/
theorem count_flatten_resizeTable (hash : Nat → Nat) {newCap : Nat}
    (hpos : 0 < newCap) (old : List (List Nat)) (a : Nat) :
    List.count a (resizeTable hash newCap old).flatten =
      List.count a old.flatten := by
  rw [resizeTable_eq_foldl_flatten,
    count_flatten_foldl_pushElem hash hpos a old.flatten _
      (List.length_replicate _ _)]
  simp [flatten_replicate_nil]

theorem length_flatten_resizeTable (hash : Nat → Nat) {newCap : Nat}
    (hpos : 0 < newCap) (old : List (List Nat)) :
    ((resizeTable hash newCap old).flatten).length = old.flatten.length := by
  rw [resizeTable_eq_foldl_flatten,
    length_flatten_foldl_pushElem hash hpos old.flatten _
      (List.length_replicate _ _)]
  simp [flatten_replicate_nil]

/-- after a rehash every stored element sits in its bucket under the new
    capacity -/
theorem placed_resizeTable (hash : Nat → Nat) (newCap : Nat)
    (old : List (List Nat)) :
    PlacedTable hash newCap (resizeTable hash newCap old) := by
  rw [resizeTable_eq_foldl_flatten]
  apply placed_foldl_pushElem
  intro i _ e hmem
  rw [getD_replicate_nil] at hmem
  simp at hmem

/-- rehashing preserves membership -/
theorem mem_flatten_resizeTable (hash : Nat → Nat) {newCap : Nat}
    (hpos : 0 < newCap) (old : List (List Nat)) (e : Nat) :
    (e ∈ (resizeTable hash newCap old).flatten) ↔ e ∈ old.flatten := by
  rw [← List.count_pos_iff, ← List.count_pos_iff,
    count_flatten_resizeTable hash hpos]

/-! ### Well-formedness of the sequential variant -/

theorem contains_true_iff_mem (b : List Nat) (e : Nat) :
    b.contains e = true ↔ e ∈ b := by simp

/-- invariant of every reachable sequential state (spec §3): positive
    capacity, table of exactly `capacity` buckets, exact element count, and
    every element in the bucket its hash selects -/
structure SeqWF (hash : Nat → Nat) (s : SeqState) : Prop where
  cap_pos : 0 < s.initial_capacity_
  len_eq : s.table_.length = s.initial_capacity_
  size_eq : s.set_size_ = s.table_.flatten.length
  placed : PlacedTable hash s.initial_capacity_ s.table_

theorem seqWF_init (hash : Nat → Nat) {c : Nat} (hc : 0 < c) :
    SeqWF hash (SeqState.init c) := by
  refine ⟨hc, List.length_replicate _ _, ?_, ?_⟩
  · simp [SeqState.init, flatten_replicate_nil]
  · intro i _ e hmem
    rw [SeqState.init] at hmem
    simp only at hmem
    rw [getD_replicate_nil] at hmem
    simp at hmem

theorem seq_resize_cap (hash : Nat → Nat) (s : SeqState) :
    (s.resize hash).initial_capacity_ = s.initial_capacity_ * 2 := rfl

theorem seq_resize_size (hash : Nat → Nat) (s : SeqState) :
    (s.resize hash).set_size_ = s.set_size_ := rfl

theorem seqWF_resize (hash : Nat → Nat) {s : SeqState} (h : SeqWF hash s) :
    SeqWF hash (s.resize hash) := by
  have hpos2 : 0 < s.initial_capacity_ * 2 := by
    have := h.cap_pos; omega
  exact ⟨hpos2, length_resizeTable hash _ _,
    by rw [seq_resize_size, SeqState.resize,
      length_flatten_resizeTable hash hpos2]; exact h.size_eq,
    placed_resizeTable hash _ _⟩

theorem seq_resize_mem (hash : Nat → Nat) {s : SeqState} (h : SeqWF hash s)
    (e : Nat) :
    (e ∈ (s.resize hash).table_.flatten) ↔ e ∈ s.table_.flatten := by
  have hpos2 : 0 < s.initial_capacity_ * 2 := by
    have := h.cap_pos; omega
  exact mem_flatten_resizeTable hash hpos2 _ e

/-- `Contains` answers exactly membership in the table on well-formed states -/
theorem seq_contains_iff (hash : Nat → Nat) {s : SeqState} (h : SeqWF hash s)
    (e : Nat) :
    s.containsElem hash e = true ↔ e ∈ s.table_.flatten := by
  rw [SeqState.containsElem, contains_true_iff_mem]
  exact (mem_flatten_iff_mem_home h.placed e).symm

/-- adding a present element is a pure no-op returning false -/
theorem seq_add_present_spec (hash : Nat → Nat) {s : SeqState} {e : Nat}
    (h : SeqWF hash s) (he : e ∈ s.table_.flatten) :
    s.add hash e = (false, s) := by
  have hb : e ∈ s.table_.getD (hash e % s.initial_capacity_) [] :=
    (mem_flatten_iff_mem_home h.placed e).mp he
  have hc : (s.table_.getD (hash e % s.initial_capacity_) []).contains e =
      true := (contains_true_iff_mem _ _).mpr hb
  rw [SeqState.add]
  simp only [hc, if_true]

/-- adding an absent element returns true, increments the size by one,
    preserves well-formedness, and the new table holds exactly the old
    elements plus `e` -/
theorem seq_add_absent_spec (hash : Nat → Nat) {s : SeqState} {e : Nat}
    (h : SeqWF hash s) (he : e ∉ s.table_.flatten) :
    (s.add hash e).1 = true ∧
    SeqWF hash (s.add hash e).2 ∧
    (s.add hash e).2.set_size_ = s.set_size_ + 1 ∧
    (∀ a, (a ∈ (s.add hash e).2.table_.flatten) ↔
      a ∈ s.table_.flatten ∨ a = e) := by
  have hb : e ∉ s.table_.getD (hash e % s.initial_capacity_) [] :=
    fun hmem => he (mem_getD_mem_flatten _ _ hmem)
  have hidx : hash e % s.initial_capacity_ < s.table_.length := by
    rw [h.len_eq]; exact Nat.mod_lt _ h.cap_pos
  set b := s.table_.getD (hash e % s.initial_capacity_) [] with hbdef
  set s1 : SeqState :=
    { s with set_size_ := s.set_size_ + 1,
             table_ := s.table_.set (hash e % s.initial_capacity_) (b ++ [e]) }
    with hs1
  have hs1t : s1.table_ = pushElem hash s.initial_capacity_ s.table_ e := rfl
  have hs1z : s1.set_size_ = s.set_size_ + 1 := rfl
  have hmem1 : ∀ a, (a ∈ s1.table_.flatten) ↔ a ∈ s.table_.flatten ∨ a = e := by
    intro a
    rw [hs1t, ← List.count_pos_iff,
      count_flatten_pushElem hash e h.len_eq h.cap_pos a, List.count_append,
      ← List.count_pos_iff (l := s.table_.flatten)]
    by_cases hae : a = e
    · subst hae
      have h2 : List.count a ([a] : List Nat) = 1 := by simp
      rw [h2]
      exact ⟨fun _ => Or.inr rfl, fun _ => by omega⟩
    · have h2 : List.count a ([e] : List Nat) = 0 := by
        rw [List.count_eq_zero]; simp [hae]
      rw [h2]
      constructor
      · intro hpos; exact Or.inl (by omega)
      · intro hor
        cases hor with
        | inl hp => omega
        | inr hp => exact absurd hp hae
  have hlen1 : s1.table_.flatten.length = s.table_.flatten.length + 1 := by
    rw [hs1t, length_flatten_pushElem hash e h.len_eq h.cap_pos]
  have hWF1 : SeqWF hash s1 := by
    refine ⟨h.cap_pos, ?_, ?_, ?_⟩
    · rw [hs1t, length_pushElem]; exact h.len_eq
    · rw [hs1z, h.size_eq, hlen1]
    · rw [show s1.initial_capacity_ = s.initial_capacity_ from rfl, hs1t]
      exact placed_pushElem hash e h.placed
  have hadd : s.add hash e =
      (if s1.policy then (true, s1.resize hash) else (true, s1)) := by
    rw [SeqState.add]
    simp only [← hbdef, ← hs1]
    rw [if_neg (by rw [contains_true_iff_mem]; exact hb)]
  by_cases hp : s1.policy
  · rw [hadd, if_pos hp]
    refine ⟨rfl, seqWF_resize hash hWF1, ?_, ?_⟩
    · rw [seq_resize_size, hs1z]
    · intro a
      rw [seq_resize_mem hash hWF1 a]
      exact hmem1 a
  · rw [hadd, if_neg hp]
    exact ⟨rfl, hWF1, hs1z, hmem1⟩

/-- removing with zero count short-circuits: false, state untouched -/
theorem seq_remove_zero (hash : Nat → Nat) (s : SeqState) (e : Nat)
    (h : s.set_size_ = 0) : s.remove hash e = (false, s) := by
  rw [SeqState.remove, if_pos h]

/-- removing an absent element returns false and leaves the state untouched -/
theorem seq_remove_absent_spec (hash : Nat → Nat) {s : SeqState} {e : Nat}
    (he : e ∉ s.table_.flatten) :
    s.remove hash e = (false, s) := by
  by_cases hz : s.set_size_ = 0
  · exact seq_remove_zero hash s e hz
  · have hb : e ∉ s.table_.getD (hash e % s.initial_capacity_) [] :=
      fun hmem => he (mem_getD_mem_flatten _ _ hmem)
    rw [SeqState.remove, if_neg hz,
      if_neg (by rw [contains_true_iff_mem]; exact hb)]

/-- removing a present element returns true, decrements the size by one and
    preserves well-formedness -/
theorem seq_remove_present_spec (hash : Nat → Nat) {s : SeqState} {e : Nat}
    (h : SeqWF hash s) (he : e ∈ s.table_.flatten) :
    (s.remove hash e).1 = true ∧
    SeqWF hash (s.remove hash e).2 ∧
    (s.remove hash e).2.set_size_ + 1 = s.set_size_ := by
  have hb : e ∈ s.table_.getD (hash e % s.initial_capacity_) [] :=
    (mem_flatten_iff_mem_home h.placed e).mp he
  have hidx : hash e % s.initial_capacity_ < s.table_.length := by
    rw [h.len_eq]; exact Nat.mod_lt _ h.cap_pos
  have hz : s.set_size_ ≠ 0 := by
    have := h.size_eq
    have hlenpos : 0 < s.table_.flatten.length := List.length_pos.mpr
      (fun hnil => by rw [hnil] at he; simp at he)
    omega
  set b := s.table_.getD (hash e % s.initial_capacity_) [] with hbdef
  have hrem : s.remove hash e =
      (true, { s with set_size_ := s.set_size_ - 1,
                      table_ := s.table_.set (hash e % s.initial_capacity_)
                        (b.erase e) }) := by
    rw [SeqState.remove, if_neg hz]
    simp only [← hbdef]
    rw [if_pos (by rw [contains_true_iff_mem]; exact hb)]
  set s1 : SeqState :=
    { s with set_size_ := s.set_size_ - 1,
             table_ := s.table_.set (hash e % s.initial_capacity_)
               (b.erase e) } with hs1
  have hs1t : s1.table_ = s.table_.set (hash e % s.initial_capacity_)
    (b.erase e) := rfl
  have hs1z : s1.set_size_ = s.set_size_ - 1 := rfl
  have hlen1 : s1.table_.flatten.length + 1 = s.table_.flatten.length := by
    have h2 := length_flatten_set (b.erase e) s.table_ _ hidx
    rw [← hbdef] at h2
    have h3 : (b.erase e).length + 1 = b.length := by
      rw [List.length_erase_of_mem hb]
      have hbp : 0 < b.length := List.length_pos.mpr
        (fun hnil => by rw [hnil] at hb; simp at hb)
      omega
    rw [hs1t]
    omega
  have hWF1 : SeqWF hash s1 := by
    refine ⟨h.cap_pos, ?_, ?_, ?_⟩
    · rw [hs1t, List.length_set]; exact h.len_eq
    · rw [hs1z, h.size_eq]
      omega
    · intro i hi a hmem
      rw [hs1t] at hmem hi
      rw [List.length_set] at hi
      by_cases hie : hash e % s.initial_capacity_ = i
      · subst hie
        rw [getD_set_self _ hidx] at hmem
        exact h.placed _ hidx _ (List.mem_of_mem_erase hmem)
      · rw [getD_set_ne _ hie] at hmem
        exact h.placed i hi a hmem
  rw [hrem]
  refine ⟨rfl, ?_, ?_⟩
  · exact hWF1
  · show s1.set_size_ + 1 = s.set_size_
    rw [hs1z]
    omega

/-! ### Reachability invariant of the sequential variant -/

theorem seq_step_add (hash : Nat → Nat) (s : SeqState) (e : Nat) :
    SeqState.step hash s (.add e) =
      (.rbool (s.add hash e).1, (s.add hash e).2) := rfl

theorem seq_step_remove (hash : Nat → Nat) (s : SeqState) (e : Nat) :
    SeqState.step hash s (.remove e) =
      (.rbool (s.remove hash e).1, (s.remove hash e).2) := rfl

theorem seq_step_contains (hash : Nat → Nat) (s : SeqState) (e : Nat) :
    SeqState.step hash s (.contains e) =
      (.rbool (s.containsElem hash e), s) := rfl

theorem seq_step_size (hash : Nat → Nat) (s : SeqState) :
    SeqState.step hash s .size = (.rnat s.set_size_, s) := rfl

theorem seq_run_nil (hash : Nat → Nat) (s : SeqState) :
    SeqState.run hash s [] = ([], s) := rfl

theorem seq_run_cons (hash : Nat → Nat) (s : SeqState) (op : Op)
    (ops : List Op) :
    SeqState.run hash s (op :: ops) =
      ((SeqState.step hash s op).1 ::
        (SeqState.run hash (SeqState.step hash s op).2 ops).1,
       (SeqState.run hash (SeqState.step hash s op).2 ops).2) := rfl

/-- one Add leaves the capacity alone or doubles it -/
theorem seq_add_cap (hash : Nat → Nat) (s : SeqState) (e : Nat) :
    (s.add hash e).2.initial_capacity_ = s.initial_capacity_ ∨
    (s.add hash e).2.initial_capacity_ = s.initial_capacity_ * 2 := by
  simp only [SeqState.add]
  split
  · exact Or.inl rfl
  · split
    · exact Or.inr rfl
    · exact Or.inl rfl

/-- Remove never changes the capacity -/
theorem seq_remove_cap (hash : Nat → Nat) (s : SeqState) (e : Nat) :
    (s.remove hash e).2.initial_capacity_ = s.initial_capacity_ := by
  simp only [SeqState.remove]
  split
  · rfl
  · split
    · rfl
    · rfl

/-- a duplicate Add never changes the capacity -/
theorem seq_add_present_cap (hash : Nat → Nat) {s : SeqState} {e : Nat}
    (h : SeqWF hash s) (he : e ∈ s.table_.flatten) :
    (s.add hash e).2.initial_capacity_ = s.initial_capacity_ := by
  rw [seq_add_present_spec hash h he]

/-- an Add whose resulting count stays at or below the threshold never
    changes the capacity -/
theorem seq_add_no_policy_cap (hash : Nat → Nat) (s : SeqState) (e : Nat)
    (hp : (s.set_size_ + 1) / s.initial_capacity_ ≤ 4) :
    (s.add hash e).2.initial_capacity_ = s.initial_capacity_ := by
  simp only [SeqState.add]
  split
  · rfl
  · split
    · rename_i hpol
      exfalso
      simp only [SeqState.policy, gt_iff_lt, decide_eq_true_eq] at hpol
      omega
    · rfl

/-- combined reachability invariant: well-formed, and the capacity is the
    initial capacity times a power of two -/
def SeqInv (hash : Nat → Nat) (c : Nat) (s : SeqState) : Prop :=
  SeqWF hash s ∧ ∃ k, s.initial_capacity_ = c * 2 ^ k

theorem seqInv_init (hash : Nat → Nat) {c : Nat} (hc : 0 < c) :
    SeqInv hash c (SeqState.init c) :=
  ⟨seqWF_init hash hc, 0, by simp [SeqState.init]⟩

theorem seqInv_step (hash : Nat → Nat) {c : Nat} {s : SeqState}
    (h : SeqInv hash c s) (op : Op) :
    SeqInv hash c (SeqState.step hash s op).2 := by
  obtain ⟨hWF, k, hk⟩ := h
  cases op with
  | add e =>
    rw [seq_step_add]
    constructor
    · by_cases he : e ∈ s.table_.flatten
      · rw [seq_add_present_spec hash hWF he]; exact hWF
      · exact (seq_add_absent_spec hash hWF he).2.1
    · cases seq_add_cap hash s e with
      | inl hcap => exact ⟨k, by rw [hcap, hk]⟩
      | inr hcap =>
        exact ⟨k + 1, by rw [hcap, hk, pow_succ, Nat.mul_assoc]⟩
  | remove e =>
    rw [seq_step_remove]
    constructor
    · by_cases he : e ∈ s.table_.flatten
      · exact (seq_remove_present_spec hash hWF he).2.1
      · rw [seq_remove_absent_spec hash he]; exact hWF
    · exact ⟨k, by rw [seq_remove_cap, hk]⟩
  | contains e => exact ⟨hWF, k, hk⟩
  | size => exact ⟨hWF, k, hk⟩

theorem seqInv_run_from (hash : Nat → Nat) {c : Nat} :
    ∀ (ops : List Op) (s : SeqState), SeqInv hash c s →
      SeqInv hash c (SeqState.run hash s ops).2 := by
  intro ops
  induction ops with
  | nil => intro s h; exact h
  | cons op ops ih =>
    intro s h
    rw [seq_run_cons]
    exact ih _ (seqInv_step hash h op)

/-- every state the sequential variant reaches from a positive initial
    capacity is well-formed with a capacity of the form `c * 2 ^ k` -/
theorem seqInv_run (hash : Nat → Nat) {c : Nat} (hc : 0 < c) (ops : List Op) :
    SeqInv hash c (SeqState.run hash (SeqState.init c) ops).2 :=
  seqInv_run_from hash ops _ (seqInv_init hash hc)

/-! ### Single-threaded refinement: each concurrent variant projects onto the
  sequential one -/

/-- forget the lock of the coarse-grained state -/
def CoarseState.toSeq (s : CoarseState) : SeqState :=
  { initial_capacity_ := s.initial_capacity_, set_size_ := s.set_size_,
    table_ := s.table_ }

/-- forget the stripe locks; the sequential capacity is the striped variant's
    current capacity -/
def StripedState.toSeq (s : StripedState) : SeqState :=
  { initial_capacity_ := s.current_capacity_, set_size_ := s.set_size_,
    table_ := s.table_ }

/-- forget the bucket locks and resize lock of the refinable state -/
def RefinableState.toSeq (s : RefinableState) : SeqState :=
  { initial_capacity_ := s.current_capacity_, set_size_ := s.set_size_,
    table_ := s.table_ }

theorem coarse_add_toSeq (hash : Nat → Nat) (s : CoarseState) (e : Nat) :
    SeqState.add hash s.toSeq e =
      ((CoarseState.add hash s e).1, (CoarseState.add hash s e).2.toSeq) := by
  by_cases hc : e ∈ (s.table_[hash e % s.initial_capacity_]?).getD []
  · simp [SeqState.add, CoarseState.add, CoarseState.toSeq, hc]
  · by_cases hp : 4 < (s.set_size_ + 1) / s.initial_capacity_
    · simp [SeqState.add, CoarseState.add, CoarseState.toSeq, SeqState.policy,
        CoarseState.policy, SeqState.resize, CoarseState.resize, hc, hp]
    · simp [SeqState.add, CoarseState.add, CoarseState.toSeq, SeqState.policy,
        CoarseState.policy, hc, hp]

theorem coarse_remove_toSeq (hash : Nat → Nat) (s : CoarseState) (e : Nat) :
    SeqState.remove hash s.toSeq e =
      ((CoarseState.remove hash s e).1,
       (CoarseState.remove hash s e).2.toSeq) := by
  by_cases hz : s.set_size_ = 0
  · simp [SeqState.remove, CoarseState.remove, CoarseState.toSeq, hz]
  · by_cases hc : e ∈ (s.table_[hash e % s.initial_capacity_]?).getD []
    · simp [SeqState.remove, CoarseState.remove, CoarseState.toSeq, hz, hc]
    · simp [SeqState.remove, CoarseState.remove, CoarseState.toSeq, hz, hc]

theorem coarse_step_toSeq (hash : Nat → Nat) (s : CoarseState) (op : Op) :
    SeqState.step hash s.toSeq op =
      ((CoarseState.step hash s op).1, (CoarseState.step hash s op).2.toSeq) := by
  cases op with
  | add e => rw [seq_step_add, coarse_add_toSeq]; rfl
  | remove e => rw [seq_step_remove, coarse_remove_toSeq]; rfl
  | contains e => rfl
  | size => rfl

theorem coarse_run_toSeq (hash : Nat → Nat) :
    ∀ (ops : List Op) (s : CoarseState),
      SeqState.run hash s.toSeq ops =
        ((CoarseState.run hash s ops).1,
         (CoarseState.run hash s ops).2.toSeq) := by
  intro ops
  induction ops with
  | nil => intro s; rfl
  | cons op ops ih =>
    intro s
    rw [seq_run_cons, coarse_step_toSeq, ih]
    rfl

theorem striped_add_toSeq (hash : Nat → Nat) (s : StripedState) (e : Nat) :
    SeqState.add hash s.toSeq e =
      ((StripedState.add hash s e).1, (StripedState.add hash s e).2.toSeq) := by
  by_cases hc : e ∈ (s.table_[hash e % s.current_capacity_]?).getD []
  · simp [SeqState.add, StripedState.add, StripedState.toSeq,
      StripedState.bucketIdx, hc]
  · by_cases hp : 4 < (s.set_size_ + 1) / s.current_capacity_
    · simp [SeqState.add, StripedState.add, StripedState.toSeq,
        SeqState.policy, StripedState.policy, SeqState.resize,
        StripedState.resize, StripedState.resizeBody, StripedState.bucketIdx,
        hc, hp]
    · simp [SeqState.add, StripedState.add, StripedState.toSeq,
        SeqState.policy, StripedState.policy, StripedState.bucketIdx, hc, hp]

theorem striped_remove_toSeq (hash : Nat → Nat) (s : StripedState) (e : Nat) :
    SeqState.remove hash s.toSeq e =
      ((StripedState.remove hash s e).1,
       (StripedState.remove hash s e).2.toSeq) := by
  by_cases hz : s.set_size_ = 0
  · simp [SeqState.remove, StripedState.remove, StripedState.toSeq,
      StripedState.bucketIdx, hz]
  · by_cases hc : e ∈ (s.table_[hash e % s.current_capacity_]?).getD []
    · simp [SeqState.remove, StripedState.remove, StripedState.toSeq,
        StripedState.bucketIdx, hz, hc]
    · simp [SeqState.remove, StripedState.remove, StripedState.toSeq,
        StripedState.bucketIdx, hz, hc]

theorem striped_step_toSeq (hash : Nat → Nat) (s : StripedState) (op : Op) :
    SeqState.step hash s.toSeq op =
      ((StripedState.step hash s op).1,
       (StripedState.step hash s op).2.toSeq) := by
  cases op with
  | add e => rw [seq_step_add, striped_add_toSeq]; rfl
  | remove e => rw [seq_step_remove, striped_remove_toSeq]; rfl
  | contains e => rfl
  | size => rfl

theorem striped_run_toSeq (hash : Nat → Nat) :
    ∀ (ops : List Op) (s : StripedState),
      SeqState.run hash s.toSeq ops =
        ((StripedState.run hash s ops).1,
         (StripedState.run hash s ops).2.toSeq) := by
  intro ops
  induction ops with
  | nil => intro s; rfl
  | cons op ops ih =>
    intro s
    rw [seq_run_cons, striped_step_toSeq, ih]
    rfl

theorem refinable_add_toSeq (hash : Nat → Nat) (s : RefinableState) (e : Nat) :
    SeqState.add hash s.toSeq e =
      ((RefinableState.add hash s e).1,
       (RefinableState.add hash s e).2.toSeq) := by
  by_cases hc : e ∈ (s.table_[hash e % s.current_capacity_]?).getD []
  · simp [SeqState.add, RefinableState.add, RefinableState.toSeq, hc]
  · by_cases hp : 4 < (s.set_size_ + 1) / s.current_capacity_
    · simp [SeqState.add, RefinableState.add, RefinableState.toSeq,
        SeqState.policy, RefinableState.policy, SeqState.resize,
        RefinableState.resize, RefinableState.resizeBody, hc, hp,
        Nat.mul_comm]
    · simp [SeqState.add, RefinableState.add, RefinableState.toSeq,
        SeqState.policy, RefinableState.policy, hc, hp]

theorem refinable_remove_toSeq (hash : Nat → Nat) (s : RefinableState)
    (e : Nat) :
    SeqState.remove hash s.toSeq e =
      ((RefinableState.remove hash s e).1,
       (RefinableState.remove hash s e).2.toSeq) := by
  by_cases hz : s.set_size_ = 0
  · simp [SeqState.remove, RefinableState.remove, RefinableState.toSeq, hz]
  · by_cases hc : e ∈ (s.table_[hash e % s.current_capacity_]?).getD []
    · simp [SeqState.remove, RefinableState.remove, RefinableState.toSeq,
        hz, hc]
    · simp [SeqState.remove, RefinableState.remove, RefinableState.toSeq,
        hz, hc]

theorem refinable_step_toSeq (hash : Nat → Nat) (s : RefinableState) (op : Op) :
    SeqState.step hash s.toSeq op =
      ((RefinableState.step hash s op).1,
       (RefinableState.step hash s op).2.toSeq) := by
  cases op with
  | add e => rw [seq_step_add, refinable_add_toSeq]; rfl
  | remove e => rw [seq_step_remove, refinable_remove_toSeq]; rfl
  | contains e => rfl
  | size => rfl

theorem refinable_run_toSeq (hash : Nat → Nat) :
    ∀ (ops : List Op) (s : RefinableState),
      SeqState.run hash s.toSeq ops =
        ((RefinableState.run hash s ops).1,
         (RefinableState.run hash s ops).2.toSeq) := by
  intro ops
  induction ops with
  | nil => intro s; rfl
  | cons op ops ih =>
    intro s
    rw [seq_run_cons, refinable_step_toSeq, ih]
    rfl

theorem coarse_init_toSeq (c : Nat) :
    (CoarseState.init c).toSeq = SeqState.init c := rfl

theorem striped_init_toSeq (c : Nat) :
    (StripedState.init c).toSeq = SeqState.init c := rfl

theorem refinable_init_toSeq (c : Nat) :
    (RefinableState.init c).toSeq = SeqState.init c := rfl

theorem coarse_toSeq_inj {a b : CoarseState} (h : a.toSeq = b.toSeq) :
    a = b := by
  cases a
  cases b
  simp only [CoarseState.toSeq, SeqState.mk.injEq] at h
  simp [h.1, h.2.1, h.2.2]

/-- the coarse-grained state reached by a run projects onto the sequential
    state reached by the same run -/
theorem coarse_run_state (hash : Nat → Nat) (c : Nat) (ops : List Op) :
    ((CoarseState.run hash (CoarseState.init c) ops).2).toSeq =
      (SeqState.run hash (SeqState.init c) ops).2 := by
  rw [← coarse_init_toSeq, coarse_run_toSeq]

theorem striped_run_state (hash : Nat → Nat) (c : Nat) (ops : List Op) :
    ((StripedState.run hash (StripedState.init c) ops).2).toSeq =
      (SeqState.run hash (SeqState.init c) ops).2 := by
  rw [← striped_init_toSeq, striped_run_toSeq]

theorem refinable_run_state (hash : Nat → Nat) (c : Nat) (ops : List Op) :
    ((RefinableState.run hash (RefinableState.init c) ops).2).toSeq =
      (SeqState.run hash (SeqState.init c) ops).2 := by
  rw [← refinable_init_toSeq, refinable_run_toSeq]

/-- duplicate Add on the coarse-grained variant: no-op returning false -/
theorem coarse_add_present_spec (hash : Nat → Nat) {t : CoarseState} {e : Nat}
    (h : SeqWF hash t.toSeq) (he : e ∈ t.table_.flatten) :
    t.add hash e = (false, t) := by
  have hseq := seq_add_present_spec hash h (he : e ∈ t.toSeq.table_.flatten)
  rw [coarse_add_toSeq] at hseq
  rw [Prod.ext_iff] at hseq ⊢
  exact ⟨hseq.1, coarse_toSeq_inj hseq.2⟩

/-- Add of an absent element on the coarse-grained variant -/
theorem coarse_add_absent_spec (hash : Nat → Nat) {t : CoarseState} {e : Nat}
    (h : SeqWF hash t.toSeq) (he : e ∉ t.table_.flatten) :
    (t.add hash e).1 = true ∧
    SeqWF hash (t.add hash e).2.toSeq ∧
    (t.add hash e).2.set_size_ = t.set_size_ + 1 ∧
    (∀ a, (a ∈ (t.add hash e).2.table_.flatten) ↔
      a ∈ t.table_.flatten ∨ a = e) := by
  have hseq := seq_add_absent_spec hash h (he : e ∉ t.toSeq.table_.flatten)
  rw [coarse_add_toSeq] at hseq
  exact hseq

/-! ### Claim C1: single-threaded behavioral equivalence of the variants -/

/-- C1: for every finite sequence of Add/Remove/Contains/Size calls executed
    single-threaded from the same positive initial capacity, the
    coarse-grained, striped, and refinable variants each return exactly the
    same sequence of results as the sequential variant. -/
theorem c1_single_threaded_equivalence (hash : Nat → Nat) (ops : List Op)
    (c : Nat) (hc : 0 < c) :
    (CoarseState.run hash (CoarseState.init c) ops).1 =
      (SeqState.run hash (SeqState.init c) ops).1 ∧
    (StripedState.run hash (StripedState.init c) ops).1 =
      (SeqState.run hash (SeqState.init c) ops).1 ∧
    (RefinableState.run hash (RefinableState.init c) ops).1 =
      (SeqState.run hash (SeqState.init c) ops).1 := by
  have _ := hc
  refine ⟨?_, ?_, ?_⟩
  · rw [← coarse_init_toSeq, coarse_run_toSeq]
  · rw [← striped_init_toSeq, striped_run_toSeq]
  · rw [← refinable_init_toSeq, refinable_run_toSeq]

/-- witness for C1: a concrete mixed operation sequence at capacity 2 -/
theorem c1_single_threaded_equivalence_witness :
    (CoarseState.run (fun n => n) (CoarseState.init 2)
        [Op.add 5, Op.add 5, Op.contains 5, Op.remove 5, Op.size]).1 =
      (SeqState.run (fun n => n) (SeqState.init 2)
        [Op.add 5, Op.add 5, Op.contains 5, Op.remove 5, Op.size]).1 ∧
    (StripedState.run (fun n => n) (StripedState.init 2)
        [Op.add 5, Op.add 5, Op.contains 5, Op.remove 5, Op.size]).1 =
      (SeqState.run (fun n => n) (SeqState.init 2)
        [Op.add 5, Op.add 5, Op.contains 5, Op.remove 5, Op.size]).1 ∧
    (RefinableState.run (fun n => n) (RefinableState.init 2)
        [Op.add 5, Op.add 5, Op.contains 5, Op.remove 5, Op.size]).1 =
      (SeqState.run (fun n => n) (SeqState.init 2)
        [Op.add 5, Op.add 5, Op.contains 5, Op.remove 5, Op.size]).1 :=
  c1_single_threaded_equivalence (fun n => n)
    [Op.add 5, Op.add 5, Op.contains 5, Op.remove 5, Op.size] 2 (by decide)

/-! ### Claim C2: Add semantics and idempotence -/

/-- C2: on every reachable state of the sequential and coarse-grained
    variants, Add(e) returns true and increases Size() by exactly 1 when `e`
    is absent, returns false leaving the entire state unchanged when `e` is
    present, and two consecutive Add(e) calls on an absent element yield
    (true, false) with a net Size increase of exactly 1. -/
theorem c2_add_idempotence (hash : Nat → Nat) {c : Nat} (hc : 0 < c)
    (ops : List Op) (e : Nat) (s : SeqState) (t : CoarseState)
    (hs : s = (SeqState.run hash (SeqState.init c) ops).2)
    (ht : t = (CoarseState.run hash (CoarseState.init c) ops).2) :
    ((e ∉ s.table_.flatten →
        (s.add hash e).1 = true ∧
        (s.add hash e).2.set_size_ = s.set_size_ + 1 ∧
        ((s.add hash e).2.add hash e).1 = false ∧
        ((s.add hash e).2.add hash e).2 = (s.add hash e).2 ∧
        ((s.add hash e).2.add hash e).2.set_size_ = s.set_size_ + 1) ∧
     (e ∈ s.table_.flatten → s.add hash e = (false, s))) ∧
    ((e ∉ t.table_.flatten →
        (t.add hash e).1 = true ∧
        (t.add hash e).2.set_size_ = t.set_size_ + 1 ∧
        ((t.add hash e).2.add hash e).1 = false ∧
        ((t.add hash e).2.add hash e).2 = (t.add hash e).2 ∧
        ((t.add hash e).2.add hash e).2.set_size_ = t.set_size_ + 1) ∧
     (e ∈ t.table_.flatten → t.add hash e = (false, t))) := by
  have hWFs : SeqWF hash s := by
    rw [hs]; exact (seqInv_run hash hc ops).1
  have hWFt : SeqWF hash t.toSeq := by
    rw [ht, coarse_run_state]; exact (seqInv_run hash hc ops).1
  constructor
  · constructor
    · intro he
      obtain ⟨h1, hWF1, hsz, hmem⟩ := seq_add_absent_spec hash hWFs he
      have he1 : e ∈ (s.add hash e).2.table_.flatten := (hmem e).mpr (Or.inr rfl)
      have h2 := seq_add_present_spec hash hWF1 he1
      refine ⟨h1, hsz, ?_, ?_, ?_⟩
      · rw [h2]
      · rw [h2]
      · rw [h2]; exact hsz
    · intro he
      exact seq_add_present_spec hash hWFs he
  · constructor
    · intro he
      obtain ⟨h1, hWF1, hsz, hmem⟩ := coarse_add_absent_spec hash hWFt he
      have he1 : e ∈ (t.add hash e).2.table_.flatten := (hmem e).mpr (Or.inr rfl)
      have h2 := coarse_add_present_spec hash hWF1 he1
      refine ⟨h1, hsz, ?_, ?_, ?_⟩
      · rw [h2]
      · rw [h2]
      · rw [h2]; exact hsz
    · intro he
      exact coarse_add_present_spec hash hWFt he

/-- witness for C2: the empty run at capacity 1 and element 0 -/
theorem c2_add_idempotence_witness :
    ((0 ∉ ((SeqState.run (fun n => n) (SeqState.init 1) []).2).table_.flatten →
        (((SeqState.run (fun n => n) (SeqState.init 1) []).2).add
          (fun n => n) 0).1 = true ∧
        (((SeqState.run (fun n => n) (SeqState.init 1) []).2).add
          (fun n => n) 0).2.set_size_ =
          ((SeqState.run (fun n => n) (SeqState.init 1) []).2).set_size_ + 1 ∧
        ((((SeqState.run (fun n => n) (SeqState.init 1) []).2).add
            (fun n => n) 0).2.add (fun n => n) 0).1 = false ∧
        ((((SeqState.run (fun n => n) (SeqState.init 1) []).2).add
            (fun n => n) 0).2.add (fun n => n) 0).2 =
          (((SeqState.run (fun n => n) (SeqState.init 1) []).2).add
            (fun n => n) 0).2 ∧
        ((((SeqState.run (fun n => n) (SeqState.init 1) []).2).add
            (fun n => n) 0).2.add (fun n => n) 0).2.set_size_ =
          ((SeqState.run (fun n => n) (SeqState.init 1) []).2).set_size_ + 1) ∧
     (0 ∈ ((SeqState.run (fun n => n) (SeqState.init 1) []).2).table_.flatten →
        ((SeqState.run (fun n => n) (SeqState.init 1) []).2).add (fun n => n) 0
          = (false, (SeqState.run (fun n => n) (SeqState.init 1) []).2))) ∧
    ((0 ∉ ((CoarseState.run (fun n => n) (CoarseState.init 1) []).2).table_.flatten →
        (((CoarseState.run (fun n => n) (CoarseState.init 1) []).2).add
          (fun n => n) 0).1 = true ∧
        (((CoarseState.run (fun n => n) (CoarseState.init 1) []).2).add
          (fun n => n) 0).2.set_size_ =
          ((CoarseState.run (fun n => n) (CoarseState.init 1) []).2).set_size_ + 1 ∧
        ((((CoarseState.run (fun n => n) (CoarseState.init 1) []).2).add
            (fun n => n) 0).2.add (fun n => n) 0).1 = false ∧
        ((((CoarseState.run (fun n => n) (CoarseState.init 1) []).2).add
            (fun n => n) 0).2.add (fun n => n) 0).2 =
          (((CoarseState.run (fun n => n) (CoarseState.init 1) []).2).add
            (fun n => n) 0).2 ∧
        ((((CoarseState.run (fun n => n) (CoarseState.init 1) []).2).add
            (fun n => n) 0).2.add (fun n => n) 0).2.set_size_ =
          ((CoarseState.run (fun n => n) (CoarseState.init 1) []).2).set_size_ + 1) ∧
     (0 ∈ ((CoarseState.run (fun n => n) (CoarseState.init 1) []).2).table_.flatten →
        ((CoarseState.run (fun n => n) (CoarseState.init 1) []).2).add
          (fun n => n) 0
          = (false, (CoarseState.run (fun n => n) (CoarseState.init 1) []).2))) :=
  c2_add_idempotence (fun n => n) (by decide) [] 0
    ((SeqState.run (fun n => n) (SeqState.init 1) []).2)
    ((CoarseState.run (fun n => n) (CoarseState.init 1) []).2) rfl rfl

/-! ### Claim C3: Remove semantics with zero-count short-circuit -/

theorem striped_eq_of_toSeq {a b : StripedState} (h : a.toSeq = b.toSeq)
    (h1 : a.initial_capacity_ = b.initial_capacity_)
    (h2 : a.mutexes_len = b.mutexes_len) : a = b := by
  cases a
  cases b
  simp only [StripedState.toSeq, SeqState.mk.injEq] at h
  simp only at h1 h2
  simp [h.1, h.2.1, h.2.2, h1, h2]

/-- Remove never touches the striped variant's lock layout or capacities -/
theorem striped_remove_fields (hash : Nat → Nat) (t : StripedState) (e : Nat) :
    (t.remove hash e).2.initial_capacity_ = t.initial_capacity_ ∧
    (t.remove hash e).2.mutexes_len = t.mutexes_len ∧
    (t.remove hash e).2.current_capacity_ = t.current_capacity_ := by
  simp only [StripedState.remove]
  split
  · exact ⟨rfl, rfl, rfl⟩
  · split
    · exact ⟨rfl, rfl, rfl⟩
    · exact ⟨rfl, rfl, rfl⟩

/-- C3: on every reachable state of the sequential and striped variants,
    Remove(e) returns true and decreases the count by exactly 1 when `e` is
    present, returns false leaving Size() unchanged when `e` is absent, and
    short-circuits to false leaving the state untouched when the count is
    zero. -/
theorem c3_remove_semantics (hash : Nat → Nat) {c : Nat} (hc : 0 < c)
    (ops : List Op) (e : Nat) (s : SeqState) (t : StripedState)
    (hs : s = (SeqState.run hash (SeqState.init c) ops).2)
    (ht : t = (StripedState.run hash (StripedState.init c) ops).2) :
    ((e ∈ s.table_.flatten →
        (s.remove hash e).1 = true ∧
        (s.remove hash e).2.set_size_ + 1 = s.set_size_) ∧
     (e ∉ s.table_.flatten → s.remove hash e = (false, s)) ∧
     (s.set_size_ = 0 → s.remove hash e = (false, s))) ∧
    ((e ∈ t.table_.flatten →
        (t.remove hash e).1 = true ∧
        (t.remove hash e).2.set_size_ + 1 = t.set_size_) ∧
     (e ∉ t.table_.flatten → t.remove hash e = (false, t)) ∧
     (t.set_size_ = 0 → t.remove hash e = (false, t))) := by
  have hWFs : SeqWF hash s := by
    rw [hs]; exact (seqInv_run hash hc ops).1
  have hWFt : SeqWF hash t.toSeq := by
    rw [ht, striped_run_state]; exact (seqInv_run hash hc ops).1
  refine ⟨⟨?_, ?_, ?_⟩, ?_, ?_, ?_⟩
  · intro he
    obtain ⟨h1, _, hsz⟩ := seq_remove_present_spec hash hWFs he
    exact ⟨h1, hsz⟩
  · intro he
    exact seq_remove_absent_spec hash he
  · intro hz
    exact seq_remove_zero hash s e hz
  · intro he
    obtain ⟨h1, _, hsz⟩ :=
      seq_remove_present_spec hash hWFt (he : e ∈ t.toSeq.table_.flatten)
    rw [striped_remove_toSeq] at h1 hsz
    exact ⟨h1, hsz⟩
  · intro he
    have hseq : SeqState.remove hash t.toSeq e = (false, t.toSeq) :=
      seq_remove_absent_spec hash (he : e ∉ t.toSeq.table_.flatten)
    rw [striped_remove_toSeq, Prod.ext_iff] at hseq
    obtain ⟨hf1, hf2, hf3⟩ := striped_remove_fields hash t e
    rw [Prod.ext_iff]
    exact ⟨hseq.1, striped_eq_of_toSeq hseq.2 hf1 hf2⟩
  · intro hz
    rw [StripedState.remove, if_pos hz]

/-- witness for C3: the empty run at capacity 1 with element 0 -/
theorem c3_remove_semantics_witness :
    ((0 ∈ ((SeqState.run (fun n => n) (SeqState.init 1) []).2).table_.flatten →
        (((SeqState.run (fun n => n) (SeqState.init 1) []).2).remove
          (fun n => n) 0).1 = true ∧
        (((SeqState.run (fun n => n) (SeqState.init 1) []).2).remove
          (fun n => n) 0).2.set_size_ + 1 =
          ((SeqState.run (fun n => n) (SeqState.init 1) []).2).set_size_) ∧
     (0 ∉ ((SeqState.run (fun n => n) (SeqState.init 1) []).2).table_.flatten →
        ((SeqState.run (fun n => n) (SeqState.init 1) []).2).remove
          (fun n => n) 0 =
          (false, (SeqState.run (fun n => n) (SeqState.init 1) []).2)) ∧
     (((SeqState.run (fun n => n) (SeqState.init 1) []).2).set_size_ = 0 →
        ((SeqState.run (fun n => n) (SeqState.init 1) []).2).remove
          (fun n => n) 0 =
          (false, (SeqState.run (fun n => n) (SeqState.init 1) []).2))) ∧
    ((0 ∈ ((StripedState.run (fun n => n) (StripedState.init 1) []).2).table_.flatten →
        (((StripedState.run (fun n => n) (StripedState.init 1) []).2).remove
          (fun n => n) 0).1 = true ∧
        (((StripedState.run (fun n => n) (StripedState.init 1) []).2).remove
          (fun n => n) 0).2.set_size_ + 1 =
          ((StripedState.run (fun n => n) (StripedState.init 1) []).2).set_size_) ∧
     (0 ∉ ((StripedState.run (fun n => n) (StripedState.init 1) []).2).table_.flatten →
        ((StripedState.run (fun n => n) (StripedState.init 1) []).2).remove
          (fun n => n) 0 =
          (false, (StripedState.run (fun n => n) (StripedState.init 1) []).2)) ∧
     (((StripedState.run (fun n => n) (StripedState.init 1) []).2).set_size_ = 0 →
        ((StripedState.run (fun n => n) (StripedState.init 1) []).2).remove
          (fun n => n) 0 =
          (false, (StripedState.run (fun n => n) (StripedState.init 1) []).2))) :=
  c3_remove_semantics (fun n => n) (by decide) [] 0
    ((SeqState.run (fun n => n) (SeqState.init 1) []).2)
    ((StripedState.run (fun n => n) (StripedState.init 1) []).2) rfl rfl

/-! ### Claim C4: Resize doubles the capacity and preserves the contents -/

theorem bool_eq_of_true_iff {a b : Bool} (h : (a = true) ↔ (b = true)) :
    a = b := by
  cases a <;> cases b <;> simp_all

/-- Contains is unchanged by a sequential resize -/
theorem seq_resize_contains (hash : Nat → Nat) {s : SeqState}
    (h : SeqWF hash s) (x : Nat) :
    (s.resize hash).containsElem hash x = s.containsElem hash x := by
  apply bool_eq_of_true_iff
  rw [seq_contains_iff hash (seqWF_resize hash h) x, seq_contains_iff hash h x,
    seq_resize_mem hash h x]

/-- the refinable Resize, called when the double-check passes, in closed
    form -/
theorem refinable_resize_eq (hash : Nat → Nat) (t : RefinableState) :
    t.resize hash =
      { t with current_capacity_ := 2 * t.current_capacity_,
               table_ := resizeTable hash (2 * t.current_capacity_) t.table_,
               mutexes_len := 2 * t.current_capacity_ } := by
  rw [RefinableState.resize, RefinableState.resizeBody,
    if_neg (fun h => h rfl)]

theorem refinable_resize_toSeq (hash : Nat → Nat) (t : RefinableState) :
    (t.resize hash).toSeq = SeqState.resize hash t.toSeq := by
  rw [refinable_resize_eq]
  simp [RefinableState.toSeq, SeqState.resize, Nat.mul_comm]

/-- C4: on every reachable state of the sequential and refinable variants, a
    Resize that runs to completion doubles the capacity exactly, leaves
    Size() unchanged, leaves Contains(e) unchanged for every element, and
    places every stored element in the bucket its hash selects under the new
    capacity; reachable capacities are exactly the initial capacity times a
    power of two, so the capacity never shrinks. -/
theorem c4_resize_semantics (hash : Nat → Nat) {c : Nat} (hc : 0 < c)
    (ops : List Op) (s : SeqState) (t : RefinableState)
    (hs : s = (SeqState.run hash (SeqState.init c) ops).2)
    (ht : t = (RefinableState.run hash (RefinableState.init c) ops).2) :
    ((s.resize hash).initial_capacity_ = s.initial_capacity_ * 2 ∧
     (s.resize hash).set_size_ = s.set_size_ ∧
     (∀ e, (s.resize hash).containsElem hash e = s.containsElem hash e) ∧
     PlacedTable hash (s.resize hash).initial_capacity_
       (s.resize hash).table_ ∧
     (∃ k, s.initial_capacity_ = c * 2 ^ k)) ∧
    ((t.resize hash).current_capacity_ = 2 * t.current_capacity_ ∧
     (t.resize hash).set_size_ = t.set_size_ ∧
     (∀ e, (t.resize hash).containsElem hash e = t.containsElem hash e) ∧
     PlacedTable hash (t.resize hash).current_capacity_
       (t.resize hash).table_ ∧
     (∃ k, t.current_capacity_ = c * 2 ^ k)) := by
  have hWFs : SeqWF hash s := by
    rw [hs]; exact (seqInv_run hash hc ops).1
  have hks : ∃ k, s.initial_capacity_ = c * 2 ^ k := by
    rw [hs]; exact (seqInv_run hash hc ops).2
  have hWFt : SeqWF hash t.toSeq := by
    rw [ht, refinable_run_state]; exact (seqInv_run hash hc ops).1
  have hkt : ∃ k, t.current_capacity_ = c * 2 ^ k := by
    have : t.toSeq.initial_capacity_ = t.current_capacity_ := rfl
    rw [← this, ht, refinable_run_state]
    exact (seqInv_run hash hc ops).2
  refine ⟨⟨rfl, rfl, ?_, ?_, hks⟩, ?_, ?_, ?_, ?_, hkt⟩
  · intro e
    exact seq_resize_contains hash hWFs e
  · exact placed_resizeTable hash _ _
  · rw [refinable_resize_eq]
  · rw [refinable_resize_eq]
  · intro e
    calc (t.resize hash).containsElem hash e
        = ((t.resize hash).toSeq).containsElem hash e := rfl
      _ = (SeqState.resize hash t.toSeq).containsElem hash e := by
            rw [refinable_resize_toSeq]
      _ = t.toSeq.containsElem hash e := seq_resize_contains hash hWFt e
      _ = t.containsElem hash e := rfl
  · rw [refinable_resize_eq]
    exact placed_resizeTable hash _ _

/-- witness for C4: the state after three adds at capacity 1 -/
theorem c4_resize_semantics_witness :
    ((((SeqState.run (fun n => n) (SeqState.init 1)
          [Op.add 0, Op.add 1, Op.add 2]).2).resize
        (fun n => n)).initial_capacity_ =
      ((SeqState.run (fun n => n) (SeqState.init 1)
          [Op.add 0, Op.add 1, Op.add 2]).2).initial_capacity_ * 2 ∧
     (((SeqState.run (fun n => n) (SeqState.init 1)
          [Op.add 0, Op.add 1, Op.add 2]).2).resize (fun n => n)).set_size_ =
      ((SeqState.run (fun n => n) (SeqState.init 1)
          [Op.add 0, Op.add 1, Op.add 2]).2).set_size_ ∧
     (∀ e, (((SeqState.run (fun n => n) (SeqState.init 1)
          [Op.add 0, Op.add 1, Op.add 2]).2).resize
            (fun n => n)).containsElem (fun n => n) e =
        ((SeqState.run (fun n => n) (SeqState.init 1)
          [Op.add 0, Op.add 1, Op.add 2]).2).containsElem (fun n => n) e) ∧
     PlacedTable (fun n => n)
       (((SeqState.run (fun n => n) (SeqState.init 1)
          [Op.add 0, Op.add 1, Op.add 2]).2).resize
            (fun n => n)).initial_capacity_
       (((SeqState.run (fun n => n) (SeqState.init 1)
          [Op.add 0, Op.add 1, Op.add 2]).2).resize (fun n => n)).table_ ∧
     (∃ k, ((SeqState.run (fun n => n) (SeqState.init 1)
          [Op.add 0, Op.add 1, Op.add 2]).2).initial_capacity_ = 1 * 2 ^ k)) ∧
    ((((RefinableState.run (fun n => n) (RefinableState.init 1)
          [Op.add 0, Op.add 1, Op.add 2]).2).resize
        (fun n => n)).current_capacity_ =
      2 * ((RefinableState.run (fun n => n) (RefinableState.init 1)
          [Op.add 0, Op.add 1, Op.add 2]).2).current_capacity_ ∧
     (((RefinableState.run (fun n => n) (RefinableState.init 1)
          [Op.add 0, Op.add 1, Op.add 2]).2).resize (fun n => n)).set_size_ =
      ((RefinableState.run (fun n => n) (RefinableState.init 1)
          [Op.add 0, Op.add 1, Op.add 2]).2).set_size_ ∧
     (∀ e, (((RefinableState.run (fun n => n) (RefinableState.init 1)
          [Op.add 0, Op.add 1, Op.add 2]).2).resize
            (fun n => n)).containsElem (fun n => n) e =
        ((RefinableState.run (fun n => n) (RefinableState.init 1)
          [Op.add 0, Op.add 1, Op.add 2]).2).containsElem (fun n => n) e) ∧
     PlacedTable (fun n => n)
       (((RefinableState.run (fun n => n) (RefinableState.init 1)
          [Op.add 0, Op.add 1, Op.add 2]).2).resize
            (fun n => n)).current_capacity_
       (((RefinableState.run (fun n => n) (RefinableState.init 1)
          [Op.add 0, Op.add 1, Op.add 2]).2).resize (fun n => n)).table_ ∧
     (∃ k, ((RefinableState.run (fun n => n) (RefinableState.init 1)
          [Op.add 0, Op.add 1, Op.add 2]).2).current_capacity_ = 1 * 2 ^ k)) :=
  c4_resize_semantics (fun n => n) (by decide) [Op.add 0, Op.add 1, Op.add 2]
    ((SeqState.run (fun n => n) (SeqState.init 1)
        [Op.add 0, Op.add 1, Op.add 2]).2)
    ((RefinableState.run (fun n => n) (RefinableState.init 1)
        [Op.add 0, Op.add 1, Op.add 2]).2) rfl rfl

/-! ### Claim C5: the resize policy threshold -/

/-- the integer-division policy test, characterized: `size / cap > 4` holds
    exactly when `size ≥ 5 * cap` -/
theorem div_gt_four_iff {cap size : Nat} (hpos : 0 < cap) :
    4 < size / cap ↔ 5 * cap ≤ size := by
  constructor
  · intro h
    have h5 : 5 ≤ size / cap := h
    exact (Nat.le_div_iff_mul_le hpos).mp h5
  · intro h
    have h5 : 5 ≤ size / cap := (Nat.le_div_iff_mul_le hpos).mpr h
    omega

/-- capacity after an Add of an absent element: doubled exactly when the new
    count reaches five times the capacity -/
theorem seq_add_absent_cap (hash : Nat → Nat) {s : SeqState} {e : Nat}
    (h : SeqWF hash s) (he : e ∉ s.table_.flatten) :
    (s.add hash e).2.initial_capacity_ =
      if 5 * s.initial_capacity_ ≤ s.set_size_ + 1 then
        s.initial_capacity_ * 2
      else s.initial_capacity_ := by
  have hb : e ∉ s.table_.getD (hash e % s.initial_capacity_) [] :=
    fun hmem => he (mem_getD_mem_flatten _ _ hmem)
  have hbC : ¬ ((s.table_.getD (hash e % s.initial_capacity_) []).contains e =
      true) := by
    rw [contains_true_iff_mem]; exact hb
  rw [SeqState.add]
  simp only [hbC, if_false, Bool.false_eq_true, SeqState.policy, gt_iff_lt,
    decide_eq_true_eq]
  split
  · rename_i hpol
    rw [if_pos ((div_gt_four_iff h.cap_pos).mp hpol)]
    rfl
  · rename_i hpol
    rw [if_neg (fun hle => hpol ((div_gt_four_iff h.cap_pos).mpr hle))]

theorem coarse_add_cap_toSeq (hash : Nat → Nat) (t : CoarseState) (e : Nat) :
    (CoarseState.add hash t e).2.initial_capacity_ =
      (SeqState.add hash t.toSeq e).2.initial_capacity_ := by
  rw [coarse_add_toSeq]
  rfl

theorem coarse_remove_cap_toSeq (hash : Nat → Nat) (t : CoarseState)
    (e : Nat) :
    (CoarseState.remove hash t e).2.initial_capacity_ =
      (SeqState.remove hash t.toSeq e).2.initial_capacity_ := by
  rw [coarse_remove_toSeq]
  rfl

theorem striped_add_cap_toSeq (hash : Nat → Nat) (u : StripedState) (e : Nat) :
    (StripedState.add hash u e).2.current_capacity_ =
      (SeqState.add hash u.toSeq e).2.initial_capacity_ := by
  rw [striped_add_toSeq]
  rfl

theorem striped_remove_cap_toSeq (hash : Nat → Nat) (u : StripedState)
    (e : Nat) :
    (StripedState.remove hash u e).2.current_capacity_ =
      (SeqState.remove hash u.toSeq e).2.initial_capacity_ := by
  rw [striped_remove_toSeq]
  rfl

theorem refinable_add_cap_toSeq (hash : Nat → Nat) (v : RefinableState)
    (e : Nat) :
    (RefinableState.add hash v e).2.current_capacity_ =
      (SeqState.add hash v.toSeq e).2.initial_capacity_ := by
  rw [refinable_add_toSeq]
  rfl

theorem refinable_remove_cap_toSeq (hash : Nat → Nat) (v : RefinableState)
    (e : Nat) :
    (RefinableState.remove hash v e).2.current_capacity_ =
      (SeqState.remove hash v.toSeq e).2.initial_capacity_ := by
  rw [refinable_remove_toSeq]
  rfl

/-- counterexample for C5 as stated: with initial capacity 4 and hash the
    identity, inserting the 17 distinct elements 0..16 leaves the capacity at
    4 and the count at 17, although the real-valued load factor 17/4 exceeds
    4 (17 > 4 * 4), so the insertion crossing the real-valued threshold did
    not trigger a resize: the code tests `count / capacity > 4` in integer
    division, which is false at 17/4 = 4. -/
theorem c5_policy_counterexample :
    ((SeqState.run (fun n => n) (SeqState.init 4)
        ((List.range 17).map Op.add)).2).set_size_ = 17 ∧
    ((SeqState.run (fun n => n) (SeqState.init 4)
        ((List.range 17).map Op.add)).2).initial_capacity_ = 4 ∧
    4 * 4 < 17 := by decide

/-- C5 (amended): for every variant, a resize is triggered after an
    insertion exactly when the resulting count divided by the current
    capacity exceeds 4 under the integer (floor) division the code performs,
    i.e. exactly when count ≥ 5 × capacity; an Add that does not cross this
    threshold, a duplicate Add, a Remove, and a Contains never change the
    capacity. -/
theorem c5_policy_amended (hash : Nat → Nat) {c : Nat} (hc : 0 < c)
    (ops : List Op) (e : Nat) (s : SeqState) (t : CoarseState)
    (u : StripedState) (v : RefinableState)
    (hs : s = (SeqState.run hash (SeqState.init c) ops).2)
    (ht : t = (CoarseState.run hash (CoarseState.init c) ops).2)
    (hu : u = (StripedState.run hash (StripedState.init c) ops).2)
    (hv : v = (RefinableState.run hash (RefinableState.init c) ops).2) :
    ((s.policy = true ↔ 5 * s.initial_capacity_ ≤ s.set_size_) ∧
     (e ∉ s.table_.flatten →
       (s.add hash e).2.initial_capacity_ =
         if 5 * s.initial_capacity_ ≤ s.set_size_ + 1 then
           s.initial_capacity_ * 2
         else s.initial_capacity_) ∧
     (e ∈ s.table_.flatten →
       (s.add hash e).2.initial_capacity_ = s.initial_capacity_) ∧
     (s.remove hash e).2.initial_capacity_ = s.initial_capacity_ ∧
     (SeqState.step hash s (.contains e)).2 = s ∧
     (SeqState.step hash s .size).2 = s) ∧
    ((t.policy = true ↔ 5 * t.initial_capacity_ ≤ t.set_size_) ∧
     (e ∉ t.table_.flatten →
       (t.add hash e).2.initial_capacity_ =
         if 5 * t.initial_capacity_ ≤ t.set_size_ + 1 then
           t.initial_capacity_ * 2
         else t.initial_capacity_) ∧
     (e ∈ t.table_.flatten →
       (t.add hash e).2.initial_capacity_ = t.initial_capacity_) ∧
     (t.remove hash e).2.initial_capacity_ = t.initial_capacity_ ∧
     (CoarseState.step hash t (.contains e)).2 = t ∧
     (CoarseState.step hash t .size).2 = t) ∧
    ((u.policy = true ↔ 5 * u.current_capacity_ ≤ u.set_size_) ∧
     (e ∉ u.table_.flatten →
       (u.add hash e).2.current_capacity_ =
         if 5 * u.current_capacity_ ≤ u.set_size_ + 1 then
           u.current_capacity_ * 2
         else u.current_capacity_) ∧
     (e ∈ u.table_.flatten →
       (u.add hash e).2.current_capacity_ = u.current_capacity_) ∧
     (u.remove hash e).2.current_capacity_ = u.current_capacity_ ∧
     (StripedState.step hash u (.contains e)).2 = u ∧
     (StripedState.step hash u .size).2 = u) ∧
    ((v.policy = true ↔ 5 * v.current_capacity_ ≤ v.set_size_) ∧
     (e ∉ v.table_.flatten →
       (v.add hash e).2.current_capacity_ =
         if 5 * v.current_capacity_ ≤ v.set_size_ + 1 then
           v.current_capacity_ * 2
         else v.current_capacity_) ∧
     (e ∈ v.table_.flatten →
       (v.add hash e).2.current_capacity_ = v.current_capacity_) ∧
     (v.remove hash e).2.current_capacity_ = v.current_capacity_ ∧
     (RefinableState.step hash v (.contains e)).2 = v ∧
     (RefinableState.step hash v .size).2 = v) := by
  have hWFs : SeqWF hash s := by
    rw [hs]; exact (seqInv_run hash hc ops).1
  have hWFt : SeqWF hash t.toSeq := by
    rw [ht, coarse_run_state]; exact (seqInv_run hash hc ops).1
  have hWFu : SeqWF hash u.toSeq := by
    rw [hu, striped_run_state]; exact (seqInv_run hash hc ops).1
  have hWFv : SeqWF hash v.toSeq := by
    rw [hv, refinable_run_state]; exact (seqInv_run hash hc ops).1
  refine ⟨⟨?_, ?_, ?_, ?_, rfl, rfl⟩, ⟨?_, ?_, ?_, ?_, rfl, rfl⟩,
    ⟨?_, ?_, ?_, ?_, rfl, rfl⟩, ⟨?_, ?_, ?_, ?_, rfl, rfl⟩⟩
  · simp only [SeqState.policy, gt_iff_lt, decide_eq_true_eq]
    exact div_gt_four_iff hWFs.cap_pos
  · intro he
    exact seq_add_absent_cap hash hWFs he
  · intro he
    rw [seq_add_present_spec hash hWFs he]
  · exact seq_remove_cap hash s e
  · simp only [CoarseState.policy, gt_iff_lt, decide_eq_true_eq]
    exact div_gt_four_iff hWFt.cap_pos
  · intro he
    rw [coarse_add_cap_toSeq]
    exact seq_add_absent_cap hash hWFt (he : e ∉ t.toSeq.table_.flatten)
  · intro he
    rw [coarse_add_cap_toSeq,
      seq_add_present_spec hash hWFt (he : e ∈ t.toSeq.table_.flatten)]
    rfl
  · rw [coarse_remove_cap_toSeq]
    exact seq_remove_cap hash t.toSeq e
  · simp only [StripedState.policy, gt_iff_lt, decide_eq_true_eq]
    exact div_gt_four_iff hWFu.cap_pos
  · intro he
    rw [striped_add_cap_toSeq]
    exact seq_add_absent_cap hash hWFu (he : e ∉ u.toSeq.table_.flatten)
  · intro he
    rw [striped_add_cap_toSeq,
      seq_add_present_spec hash hWFu (he : e ∈ u.toSeq.table_.flatten)]
    rfl
  · rw [striped_remove_cap_toSeq]
    exact seq_remove_cap hash u.toSeq e
  · simp only [RefinableState.policy, gt_iff_lt, decide_eq_true_eq]
    exact div_gt_four_iff hWFv.cap_pos
  · intro he
    rw [refinable_add_cap_toSeq]
    exact seq_add_absent_cap hash hWFv (he : e ∉ v.toSeq.table_.flatten)
  · intro he
    rw [refinable_add_cap_toSeq,
      seq_add_present_spec hash hWFv (he : e ∈ v.toSeq.table_.flatten)]
    rfl
  · rw [refinable_remove_cap_toSeq]
    exact seq_remove_cap hash v.toSeq e

/-- witness for C5 (amended): the freshly constructed states at capacity 1 -/
theorem c5_policy_amended_witness :
    (((SeqState.init 1).policy = true ↔
        5 * (SeqState.init 1).initial_capacity_ ≤
          (SeqState.init 1).set_size_) ∧
     (0 ∉ (SeqState.init 1).table_.flatten →
       ((SeqState.init 1).add (fun n => n) 0).2.initial_capacity_ =
         if 5 * (SeqState.init 1).initial_capacity_ ≤
             (SeqState.init 1).set_size_ + 1 then
           (SeqState.init 1).initial_capacity_ * 2
         else (SeqState.init 1).initial_capacity_) ∧
     (0 ∈ (SeqState.init 1).table_.flatten →
       ((SeqState.init 1).add (fun n => n) 0).2.initial_capacity_ =
         (SeqState.init 1).initial_capacity_) ∧
     ((SeqState.init 1).remove (fun n => n) 0).2.initial_capacity_ =
       (SeqState.init 1).initial_capacity_ ∧
     (SeqState.step (fun n => n) (SeqState.init 1) (.contains 0)).2 =
       SeqState.init 1 ∧
     (SeqState.step (fun n => n) (SeqState.init 1) .size).2 =
       SeqState.init 1) ∧
    (((CoarseState.init 1).policy = true ↔
        5 * (CoarseState.init 1).initial_capacity_ ≤
          (CoarseState.init 1).set_size_) ∧
     (0 ∉ (CoarseState.init 1).table_.flatten →
       ((CoarseState.init 1).add (fun n => n) 0).2.initial_capacity_ =
         if 5 * (CoarseState.init 1).initial_capacity_ ≤
             (CoarseState.init 1).set_size_ + 1 then
           (CoarseState.init 1).initial_capacity_ * 2
         else (CoarseState.init 1).initial_capacity_) ∧
     (0 ∈ (CoarseState.init 1).table_.flatten →
       ((CoarseState.init 1).add (fun n => n) 0).2.initial_capacity_ =
         (CoarseState.init 1).initial_capacity_) ∧
     ((CoarseState.init 1).remove (fun n => n) 0).2.initial_capacity_ =
       (CoarseState.init 1).initial_capacity_ ∧
     (CoarseState.step (fun n => n) (CoarseState.init 1) (.contains 0)).2 =
       CoarseState.init 1 ∧
     (CoarseState.step (fun n => n) (CoarseState.init 1) .size).2 =
       CoarseState.init 1) ∧
    (((StripedState.init 1).policy = true ↔
        5 * (StripedState.init 1).current_capacity_ ≤
          (StripedState.init 1).set_size_) ∧
     (0 ∉ (StripedState.init 1).table_.flatten →
       ((StripedState.init 1).add (fun n => n) 0).2.current_capacity_ =
         if 5 * (StripedState.init 1).current_capacity_ ≤
             (StripedState.init 1).set_size_ + 1 then
           (StripedState.init 1).current_capacity_ * 2
         else (StripedState.init 1).current_capacity_) ∧
     (0 ∈ (StripedState.init 1).table_.flatten →
       ((StripedState.init 1).add (fun n => n) 0).2.current_capacity_ =
         (StripedState.init 1).current_capacity_) ∧
     ((StripedState.init 1).remove (fun n => n) 0).2.current_capacity_ =
       (StripedState.init 1).current_capacity_ ∧
     (StripedState.step (fun n => n) (StripedState.init 1) (.contains 0)).2 =
       StripedState.init 1 ∧
     (StripedState.step (fun n => n) (StripedState.init 1) .size).2 =
       StripedState.init 1) ∧
    (((RefinableState.init 1).policy = true ↔
        5 * (RefinableState.init 1).current_capacity_ ≤
          (RefinableState.init 1).set_size_) ∧
     (0 ∉ (RefinableState.init 1).table_.flatten →
       ((RefinableState.init 1).add (fun n => n) 0).2.current_capacity_ =
         if 5 * (RefinableState.init 1).current_capacity_ ≤
             (RefinableState.init 1).set_size_ + 1 then
           (RefinableState.init 1).current_capacity_ * 2
         else (RefinableState.init 1).current_capacity_) ∧
     (0 ∈ (RefinableState.init 1).table_.flatten →
       ((RefinableState.init 1).add (fun n => n) 0).2.current_capacity_ =
         (RefinableState.init 1).current_capacity_) ∧
     ((RefinableState.init 1).remove (fun n => n) 0).2.current_capacity_ =
       (RefinableState.init 1).current_capacity_ ∧
     (RefinableState.step (fun n => n) (RefinableState.init 1)
        (.contains 0)).2 = RefinableState.init 1 ∧
     (RefinableState.step (fun n => n) (RefinableState.init 1) .size).2 =
       RefinableState.init 1) :=
  c5_policy_amended (fun n => n) (by decide) [] 0
    (SeqState.init 1) (CoarseState.init 1) (StripedState.init 1)
    (RefinableState.init 1) rfl rfl rfl rfl

/-! ### Claim C6: the stored counter equals the number of stored elements -/

/-- C6: in every state the coarse-grained variant reaches from a fresh set by
    any operation sequence, the stored counter returned by Size() equals the
    total number of elements physically present across all buckets, and a
    further Resize preserves this. -/
theorem c6_count_invariant (hash : Nat → Nat) {c : Nat} (hc : 0 < c)
    (ops : List Op) (t : CoarseState)
    (ht : t = (CoarseState.run hash (CoarseState.init c) ops).2) :
    t.set_size_ = (t.table_.map List.length).sum ∧
    (t.resize hash).set_size_ = ((t.resize hash).table_.map List.length).sum := by
  have hWFt : SeqWF hash t.toSeq := by
    rw [ht, coarse_run_state]; exact (seqInv_run hash hc ops).1
  constructor
  · have h1 : t.set_size_ = t.table_.flatten.length := hWFt.size_eq
    rw [h1, List.length_flatten]
  · have hWFr : SeqWF hash (t.resize hash).toSeq := seqWF_resize hash hWFt
    have h1 : (t.resize hash).set_size_ =
        (t.resize hash).table_.flatten.length := hWFr.size_eq
    rw [h1, List.length_flatten]

/-- witness for C6: one add then one remove at capacity 2 -/
theorem c6_count_invariant_witness :
    ((CoarseState.run (fun n => n) (CoarseState.init 2)
        [Op.add 7, Op.remove 7, Op.add 3]).2).set_size_ =
      ((((CoarseState.run (fun n => n) (CoarseState.init 2)
        [Op.add 7, Op.remove 7, Op.add 3]).2).table_).map List.length).sum ∧
    (((CoarseState.run (fun n => n) (CoarseState.init 2)
        [Op.add 7, Op.remove 7, Op.add 3]).2).resize (fun n => n)).set_size_ =
      (((((CoarseState.run (fun n => n) (CoarseState.init 2)
        [Op.add 7, Op.remove 7, Op.add 3]).2).resize
          (fun n => n)).table_).map List.length).sum :=
  c6_count_invariant (fun n => n) (by decide)
    [Op.add 7, Op.remove 7, Op.add 3]
    ((CoarseState.run (fun n => n) (CoarseState.init 2)
        [Op.add 7, Op.remove 7, Op.add 3]).2) rfl

/-! ### Claim C7: the double-check in the striped and refinable Resize -/

/-- C7: in the striped and refinable Resize, once all locks are held, a
    recorded capacity that differs from the current capacity aborts the
    procedure with no mutation at all; only when they are equal is the
    capacity doubled and the table rehashed (the count is untouched either
    way). -/
theorem c7_resize_double_check (hash : Nat → Nat) (u : StripedState)
    (v : RefinableState) (old1 old2 : Nat) :
    (old1 ≠ u.current_capacity_ → u.resizeBody hash old1 = u) ∧
    (old1 = u.current_capacity_ →
      (u.resizeBody hash old1).current_capacity_ =
        u.current_capacity_ * 2 ∧
      (u.resizeBody hash old1).table_ =
        resizeTable hash (u.current_capacity_ * 2) u.table_ ∧
      (u.resizeBody hash old1).set_size_ = u.set_size_ ∧
      (u.resizeBody hash old1).initial_capacity_ = u.initial_capacity_ ∧
      (u.resizeBody hash old1).mutexes_len = u.mutexes_len) ∧
    (old2 ≠ v.current_capacity_ → v.resizeBody hash old2 = v) ∧
    (old2 = v.current_capacity_ →
      (v.resizeBody hash old2).current_capacity_ = 2 * old2 ∧
      (v.resizeBody hash old2).table_ =
        resizeTable hash (2 * old2) v.table_ ∧
      (v.resizeBody hash old2).set_size_ = v.set_size_) := by
  refine ⟨?_, ?_, ?_, ?_⟩
  · intro hne
    rw [StripedState.resizeBody, if_neg hne]
  · intro heq
    subst heq
    rw [StripedState.resizeBody, if_pos rfl]
    exact ⟨rfl, rfl, rfl, rfl, rfl⟩
  · intro hne
    rw [RefinableState.resizeBody, if_pos hne]
  · intro heq
    subst heq
    rw [RefinableState.resizeBody, if_neg (fun h => h rfl)]
    exact ⟨rfl, rfl, rfl⟩

/-- witness for C7: a stale recorded capacity 3 against current capacity 2,
    and a matching recorded capacity 2 -/
theorem c7_resize_double_check_witness :
    ((StripedState.init 2).resizeBody (fun n => n) 3 = StripedState.init 2) ∧
    (((StripedState.init 2).resizeBody (fun n => n) 2).current_capacity_ =
      (StripedState.init 2).current_capacity_ * 2) ∧
    ((RefinableState.init 2).resizeBody (fun n => n) 3 =
      RefinableState.init 2) ∧
    (((RefinableState.init 2).resizeBody (fun n => n) 2).current_capacity_ =
      2 * 2) :=
  ⟨(c7_resize_double_check (fun n => n) (StripedState.init 2)
      (RefinableState.init 2) 3 3).1 (by decide),
   ((c7_resize_double_check (fun n => n) (StripedState.init 2)
      (RefinableState.init 2) 2 2).2.1 rfl).1,
   (c7_resize_double_check (fun n => n) (StripedState.init 2)
      (RefinableState.init 2) 3 3).2.2.1 (by decide),
   ((c7_resize_double_check (fun n => n) (StripedState.init 2)
      (RefinableState.init 2) 2 2).2.2.2 rfl).1⟩

/-! ### Claim C8: stripe locks are stable across growth -/

/-- Add never touches the striped variant's const capacity or lock array -/
theorem striped_add_fields (hash : Nat → Nat) (u : StripedState) (e : Nat) :
    (u.add hash e).2.initial_capacity_ = u.initial_capacity_ ∧
    (u.add hash e).2.mutexes_len = u.mutexes_len := by
  simp only [StripedState.add]
  split
  · exact ⟨rfl, rfl⟩
  · split
    · rw [StripedState.resize, StripedState.resizeBody, if_pos rfl]
      exact ⟨rfl, rfl⟩
    · exact ⟨rfl, rfl⟩

theorem striped_step_fields (hash : Nat → Nat) (u : StripedState) (op : Op) :
    ((StripedState.step hash u op).2).initial_capacity_ =
      u.initial_capacity_ ∧
    ((StripedState.step hash u op).2).mutexes_len = u.mutexes_len := by
  cases op with
  | add e => exact striped_add_fields hash u e
  | remove e =>
    obtain ⟨h1, h2, _⟩ := striped_remove_fields hash u e
    exact ⟨h1, h2⟩
  | contains e => exact ⟨rfl, rfl⟩
  | size => exact ⟨rfl, rfl⟩

/-- across any run, the striped variant's `initial_capacity_` and the length
    of its lock array never change -/
theorem striped_run_fields (hash : Nat → Nat) :
    ∀ (ops : List Op) (u : StripedState),
      ((StripedState.run hash u ops).2).initial_capacity_ =
        u.initial_capacity_ ∧
      ((StripedState.run hash u ops).2).mutexes_len = u.mutexes_len := by
  intro ops
  induction ops with
  | nil => intro u; exact ⟨rfl, rfl⟩
  | cons op ops ih =>
    intro u
    obtain ⟨h1, h2⟩ := ih (StripedState.step hash u op).2
    obtain ⟨g1, g2⟩ := striped_step_fields hash u op
    exact ⟨by rw [show (StripedState.run hash u (op :: ops)).2 =
        (StripedState.run hash (StripedState.step hash u op).2 ops).2
        from rfl, h1, g1],
      by rw [show (StripedState.run hash u (op :: ops)).2 =
        (StripedState.run hash (StripedState.step hash u op).2 ops).2
        from rfl, h2, g2]⟩

/-- C8: in every reachable striped state, the governing lock index of an
    element is its hash modulo the (unchanged) initial capacity while its
    bucket index is its hash modulo the current capacity; the lock array
    never changes size, the current capacity is the initial capacity times a
    power of two, and any two elements sharing a bucket share a stripe
    lock. -/
theorem c8_stripe_lock_stability (hash : Nat → Nat) {c : Nat} (hc : 0 < c)
    (ops : List Op) (u : StripedState)
    (hu : u = (StripedState.run hash (StripedState.init c) ops).2) :
    u.initial_capacity_ = c ∧
    u.mutexes_len = c ∧
    (∀ e, u.lockIdx hash e = hash e % c) ∧
    (∀ e, u.bucketIdx hash e = hash e % u.current_capacity_) ∧
    (∃ k, u.current_capacity_ = c * 2 ^ k) ∧
    (∀ a b : Nat, u.bucketIdx hash a = u.bucketIdx hash b →
      u.lockIdx hash a = u.lockIdx hash b) := by
  have hfields := striped_run_fields hash ops (StripedState.init c)
  have hinit : u.initial_capacity_ = c := by rw [hu]; exact hfields.1
  have hmut : u.mutexes_len = c := by rw [hu]; exact hfields.2
  have hkcur : ∃ k, u.current_capacity_ = c * 2 ^ k := by
    have hts : u.toSeq.initial_capacity_ = u.current_capacity_ := rfl
    rw [← hts, hu, striped_run_state]
    exact (seqInv_run hash hc ops).2
  refine ⟨hinit, hmut, ?_, ?_, hkcur, ?_⟩
  · intro e
    rw [StripedState.lockIdx, hinit]
  · intro e
    rfl
  · intro a b hab
    obtain ⟨k, hcur⟩ := hkcur
    have hdvd : c ∣ u.current_capacity_ := ⟨2 ^ k, hcur⟩
    have hab2 : hash a % u.current_capacity_ = hash b % u.current_capacity_ :=
      hab
    rw [StripedState.lockIdx, StripedState.lockIdx, hinit,
      ← Nat.mod_mod_of_dvd (hash a) hdvd, ← Nat.mod_mod_of_dvd (hash b) hdvd,
      hab2]

/-- witness for C8: twelve adds at capacity 2 (forcing a resize) -/
theorem c8_stripe_lock_stability_witness :
    ((StripedState.run (fun n => n) (StripedState.init 2)
        ((List.range 12).map Op.add)).2).initial_capacity_ = 2 ∧
    ((StripedState.run (fun n => n) (StripedState.init 2)
        ((List.range 12).map Op.add)).2).mutexes_len = 2 ∧
    (∀ e, ((StripedState.run (fun n => n) (StripedState.init 2)
        ((List.range 12).map Op.add)).2).lockIdx (fun n => n) e =
      (fun n => n) e % 2) ∧
    (∀ e, ((StripedState.run (fun n => n) (StripedState.init 2)
        ((List.range 12).map Op.add)).2).bucketIdx (fun n => n) e =
      (fun n => n) e % ((StripedState.run (fun n => n) (StripedState.init 2)
        ((List.range 12).map Op.add)).2).current_capacity_) ∧
    (∃ k, ((StripedState.run (fun n => n) (StripedState.init 2)
        ((List.range 12).map Op.add)).2).current_capacity_ = 2 * 2 ^ k) ∧
    (∀ a b : Nat,
      ((StripedState.run (fun n => n) (StripedState.init 2)
        ((List.range 12).map Op.add)).2).bucketIdx (fun n => n) a =
      ((StripedState.run (fun n => n) (StripedState.init 2)
        ((List.range 12).map Op.add)).2).bucketIdx (fun n => n) b →
      ((StripedState.run (fun n => n) (StripedState.init 2)
        ((List.range 12).map Op.add)).2).lockIdx (fun n => n) a =
      ((StripedState.run (fun n => n) (StripedState.init 2)
        ((List.range 12).map Op.add)).2).lockIdx (fun n => n) b) :=
  c8_stripe_lock_stability (fun n => n) (by decide)
    ((List.range 12).map Op.add)
    ((StripedState.run (fun n => n) (StripedState.init 2)
        ((List.range 12).map Op.add)).2) rfl

/-! ### Claim C9: bucket accesses are always in bounds -/

/-- C9: from a positive initial capacity, every reachable coarse-grained and
    striped state keeps a table whose length equals the (positive) current
    capacity, so the bucket index `hash(elem) mod capacity` of every element
    is in bounds and no modulus by zero occurs; the striped lock index is in
    bounds of the lock array as well, so the out-of-range branch of `at()` is
    unreachable. -/
theorem c9_bucket_index_in_bounds (hash : Nat → Nat) {c : Nat} (hc : 0 < c)
    (ops : List Op) (t : CoarseState) (u : StripedState)
    (ht : t = (CoarseState.run hash (CoarseState.init c) ops).2)
    (hu : u = (StripedState.run hash (StripedState.init c) ops).2) :
    (t.table_.length = t.initial_capacity_ ∧ 0 < t.initial_capacity_ ∧
     (∀ e, hash e % t.initial_capacity_ < t.table_.length)) ∧
    (u.table_.length = u.current_capacity_ ∧ 0 < u.current_capacity_ ∧
     (∀ e, u.bucketIdx hash e < u.table_.length) ∧
     0 < u.mutexes_len ∧
     (∀ e, u.lockIdx hash e < u.mutexes_len)) := by
  have hWFt : SeqWF hash t.toSeq := by
    rw [ht, coarse_run_state]; exact (seqInv_run hash hc ops).1
  have hWFu : SeqWF hash u.toSeq := by
    rw [hu, striped_run_state]; exact (seqInv_run hash hc ops).1
  have hfields := striped_run_fields hash ops (StripedState.init c)
  have hinit : u.initial_capacity_ = c := by rw [hu]; exact hfields.1
  have hmut : u.mutexes_len = c := by rw [hu]; exact hfields.2
  refine ⟨⟨hWFt.len_eq, hWFt.cap_pos, ?_⟩,
    hWFu.len_eq, hWFu.cap_pos, ?_, ?_, ?_⟩
  · intro e
    show hash e % t.toSeq.initial_capacity_ < t.toSeq.table_.length
    rw [hWFt.len_eq]
    exact Nat.mod_lt _ hWFt.cap_pos
  · intro e
    show hash e % u.toSeq.initial_capacity_ < u.toSeq.table_.length
    rw [hWFu.len_eq]
    exact Nat.mod_lt _ hWFu.cap_pos
  · rw [hmut]; exact hc
  · intro e
    rw [StripedState.lockIdx, hinit, hmut]
    exact Nat.mod_lt _ hc

/-- witness for C9: seven adds and a remove at capacity 3 -/
theorem c9_bucket_index_in_bounds_witness :
    (((CoarseState.run (fun n => n) (CoarseState.init 3)
        [Op.add 1, Op.add 4, Op.remove 4]).2).table_.length =
      ((CoarseState.run (fun n => n) (CoarseState.init 3)
        [Op.add 1, Op.add 4, Op.remove 4]).2).initial_capacity_ ∧
     0 < ((CoarseState.run (fun n => n) (CoarseState.init 3)
        [Op.add 1, Op.add 4, Op.remove 4]).2).initial_capacity_ ∧
     (∀ e, (fun n => n) e %
        ((CoarseState.run (fun n => n) (CoarseState.init 3)
          [Op.add 1, Op.add 4, Op.remove 4]).2).initial_capacity_ <
        ((CoarseState.run (fun n => n) (CoarseState.init 3)
          [Op.add 1, Op.add 4, Op.remove 4]).2).table_.length)) ∧
    (((StripedState.run (fun n => n) (StripedState.init 3)
        [Op.add 1, Op.add 4, Op.remove 4]).2).table_.length =
      ((StripedState.run (fun n => n) (StripedState.init 3)
        [Op.add 1, Op.add 4, Op.remove 4]).2).current_capacity_ ∧
     0 < ((StripedState.run (fun n => n) (StripedState.init 3)
        [Op.add 1, Op.add 4, Op.remove 4]).2).current_capacity_ ∧
     (∀ e, ((StripedState.run (fun n => n) (StripedState.init 3)
        [Op.add 1, Op.add 4, Op.remove 4]).2).bucketIdx (fun n => n) e <
        ((StripedState.run (fun n => n) (StripedState.init 3)
          [Op.add 1, Op.add 4, Op.remove 4]).2).table_.length) ∧
     0 < ((StripedState.run (fun n => n) (StripedState.init 3)
        [Op.add 1, Op.add 4, Op.remove 4]).2).mutexes_len ∧
     (∀ e, ((StripedState.run (fun n => n) (StripedState.init 3)
        [Op.add 1, Op.add 4, Op.remove 4]).2).lockIdx (fun n => n) e <
        ((StripedState.run (fun n => n) (StripedState.init 3)
          [Op.add 1, Op.add 4, Op.remove 4]).2).mutexes_len)) :=
  c9_bucket_index_in_bounds (fun n => n) (by decide)
    [Op.add 1, Op.add 4, Op.remove 4]
    ((CoarseState.run (fun n => n) (CoarseState.init 3)
        [Op.add 1, Op.add 4, Op.remove 4]).2)
    ((StripedState.run (fun n => n) (StripedState.init 3)
        [Op.add 1, Op.add 4, Op.remove 4]).2) rfl rfl

end ConcurrencyHashSets
